import Mathlib

/-!
The delimiter compiler and the two merge engines of paste(1).

A shallow embedding of `usr.bin/paste/paste.c`.

* Wide characters (`wchar_t`) are `Char`; `WEOF` is the absence of a character.
* An open `FILE *` is the list of characters not yet read from it; `getwc` takes
  the head of that list, and returns `WEOF` on the empty list (end of file is
  sticky).  A `NULL` stream pointer is `none`.
* The engines come twice.  `LIST`, `sweep`, `parallel` and `sequential` are the
  engines on stream lists whose entries each own their stream.  `SLIST`,
  `sweepS`, `parallelS` and `sequentialS` are the engines on the lists `main`
  builds in general, where every entry named `-` holds the one stream `stdin`
  and a read through one such entry advances the others.
* `putwchar` appends to standard output; every function below returns the text
  it wrote, and its caller concatenates the pieces in program order.
* Reading outside an array, reading through `NULL` and `%` by zero have no
  defined behaviour in C; the embedding stops with a `Stop` value there.
-/

namespace Paste

/-! ## Outcomes -/

/-- Ways a run can end without a result. -/
inductive Stop where
  /-- Exit through `errx(EXIT_FAILURE, "no delimiters specified")`. -/
  | noDelimiters
  /-- An access outside an array or through a `NULL` pointer. -/
  | badAccess
  /-- A remainder `% 0`. -/
  | divByZero
  /-- The loop budget of the embedding ran out. -/
  | outOfFuel
deriving DecidableEq, Repr

/-- Outcome of a run: a result, or the reason there is none. -/
inductive Outcome (α : Type) where
  | ok (a : α)
  | stop (s : Stop)
deriving DecidableEq, Repr

/-- The null wide character, terminator of a wide string. -/
def NUL : Char := Char.ofNat 0

/-! ## The delimiter compiler `tr` -/

/-- The `switch` of `tr`: value stored for the character `ch` that follows a
backslash. -/
def escape (ch : Char) : Char :=
  if ch = 'n' then '\n'
  else if ch = 't' then '\t'
  else if ch = '0' then NUL
  else ch

/-- The loop `for (p = arg, cnt = 0; (ch = *p++); ++arg, ++cnt)` of `tr`.
`mem` is the buffer that holds the wide string, `p` and `arg` are indices into
it.  The first argument bounds the number of iterations. -/
def trLoop : Nat → List Char → Nat → Nat → Nat → Outcome (List Char × Nat)
  | 0, _, _, _, _ => .stop .outOfFuel
  | fuel + 1, mem, p, arg, cnt =>
    match mem[p]? with
    | none => .stop .badAccess
    | some ch =>
      if ch = NUL then .ok (mem, cnt)
      else if ch = '\\' then
        match mem[p + 1]? with
        | none => .stop .badAccess
        | some ch2 => trLoop fuel (mem.set arg (escape ch2)) (p + 2) (arg + 1) (cnt + 1)
      else trLoop fuel (mem.set arg ch) (p + 1) (arg + 1) (cnt + 1)

/-- The function `tr(arg)`: compacts the delimiter string in place and returns
the buffer with the number of delimiters; exits when there is none. -/
def tr (mem : List Char) : Outcome (List Char × Nat) :=
  match trLoop (mem.length + 1) mem 0 0 0 with
  | .stop s => .stop s
  | .ok (mem', cnt) => if cnt = 0 then .stop .noDelimiters else .ok (mem', cnt)

/-- The buffer `main` hands to `tr`: the characters of the specification
followed by the terminator, `len + 1` cells in all. -/
def cstr (raw : List Char) : List Char := raw ++ [NUL]

/-! ## The stream list -/

/-- An entry of the stream list (`LIST`).  `fp` is `none` for a `NULL` stream
pointer and otherwise holds the characters not yet read; `cnt` is the position
`main` gave the stream, counted from 0; `err` is the `errno` of a failed
`fopen`, 0 when the stream opened.  The `name` field serves diagnostics only
and is left out. -/
structure LIST where
  fp : Option (List Char)
  cnt : Nat
  err : Int
deriving DecidableEq, Repr

/-- The list `main` builds in parallel mode, from position `i` on, for
arguments that each open a stream of their own: every file opened, `cnt` the
running `filecnt`, `err` zero. -/
def registryFrom : Nat → List (List Char) → List LIST
  | _, [] => []
  | i, c :: cs => { fp := some c, cnt := i, err := 0 } :: registryFrom (i + 1) cs

/-- The list `main` builds in parallel mode for files with the given contents,
no stream listed twice. -/
def registry (cs : List (List Char)) : List LIST := registryFrom 0 cs

/-! ## Delimiter selection -/

/-- The read `delim[i % delimcnt]` on `int` operands (`%` truncates towards
zero). -/
def delimAt (delim : List Char) (delimcnt : Nat) (i : Int) : Outcome Char :=
  if delimcnt = 0 then .stop .divByZero
  else
    let j := Int.tmod i (delimcnt : Int)
    if j < 0 then .stop .badAccess
    else
      match delim[j.toNat]? with
      | none => .stop .badAccess
      | some ch => .ok ch

/-- The statement `if ((ch = delim[i % delimcnt])) putwchar(ch);`: the text it
writes. -/
def putDelim (delim : List Char) (delimcnt : Nat) (i : Int) : Outcome (List Char) :=
  match delimAt delim delimcnt i with
  | .stop s => .stop s
  | .ok ch => .ok (if ch = NUL then [] else [ch])

/-! ## The parallel engine -/

/-- The loop `for (int cnt = 0; cnt < lp->cnt; ++cnt) if ((ch = delim[cnt %
delimcnt])) putwchar(ch);` with `k` iterations left and the loop variable at
`cnt`: the text it writes. -/
def leadLoop (delim : List Char) (delimcnt : Nat) : Nat → Nat → Outcome (List Char)
  | 0, _ => .ok []
  | k + 1, cnt =>
    match putDelim delim delimcnt (cnt : Int) with
    | .stop s => .stop s
    | .ok w =>
      match leadLoop delim delimcnt k (cnt + 1) with
      | .stop s => .stop s
      | .ok ws => .ok (w ++ ws)

/-- The loop `do putwchar(ich); while ((ich = getwc(lp->fp)) != WEOF && ich !=
'\n');` entered with `ich` in hand and `fp` unread: the text written and what
is left unread. -/
def copyLine : Char → List Char → List Char × List Char
  | ich, [] => ([ich], [])
  | ich, c :: more =>
    if c = '\n' then ([ich], more)
    else
      let r := copyLine c more
      (ich :: r.1, r.2)

/-- State in which a traversal of the stream list ends: the list as the
traversal left it, `opencnt`, the flag `output`, and the text written. -/
structure Sweep where
  lh : List LIST
  opencnt : Nat
  output : Bool
  out : List Char
deriving DecidableEq, Repr

/-- The body of `STAILQ_FOREACH(lp, &lh, entries)` in `parallel`, run over the
entries not yet visited, from the given `opencnt` and `output`. -/
def sweep (delim : List Char) (delimcnt : Nat) : List LIST → Nat → Bool → Outcome Sweep
  | [], opencnt, output => .ok { lh := [], opencnt := opencnt, output := output, out := [] }
  | lp :: rest, opencnt, output =>
    match lp.fp with
    | none =>
      -- if (!lp->fp)
      match (if output && lp.cnt != 0 then putDelim delim delimcnt ((lp.cnt : Int) - 1)
             else .ok []) with
      | .stop s => .stop s
      | .ok w =>
        match sweep delim delimcnt rest opencnt output with
        | .stop s => .stop s
        | .ok r => .ok { r with lh := lp :: r.lh, out := w ++ r.out }
    | some [] =>
      -- (ich = getwc(lp->fp)) == WEOF
      if opencnt - 1 = 0 then
        -- if (!--opencnt) break;
        .ok { lh := lp :: rest, opencnt := opencnt - 1, output := output, out := [] }
      else
        match (if output && lp.cnt != 0 then putDelim delim delimcnt ((lp.cnt : Int) - 1)
               else .ok []) with
        | .stop s => .stop s
        | .ok w =>
          match sweep delim delimcnt rest (opencnt - 1) output with
          | .stop s => .stop s
          | .ok r => .ok { r with lh := { lp with fp := none } :: r.lh, out := w ++ r.out }
    | some (ich :: more) =>
      match (if !output then leadLoop delim delimcnt lp.cnt 0
             else putDelim delim delimcnt ((lp.cnt : Int) - 1)) with
      | .stop s => .stop s
      | .ok w =>
        let line := if ich = '\n' then (([] : List Char), more) else copyLine ich more
        match sweep delim delimcnt rest opencnt true with
        | .stop s => .stop s
        | .ok r =>
          .ok { r with lh := { lp with fp := some line.2 } :: r.lh, out := w ++ line.1 ++ r.out }

/-- The loop `for (opencnt = filecnt; opencnt;)` of `parallel`: the text
written in each round it executes, in order.  The first argument bounds the
number of rounds. -/
def parallelRounds (delim : List Char) (delimcnt : Nat) :
    Nat → Nat → List LIST → Outcome (List (List Char))
  | 0, opencnt, _ => if opencnt = 0 then .ok [] else .stop .outOfFuel
  | fuel + 1, opencnt, lh =>
    if opencnt = 0 then .ok []
    else
      match sweep delim delimcnt lh opencnt false with
      | .stop s => .stop s
      | .ok r =>
        match parallelRounds delim delimcnt fuel r.opencnt r.lh with
        | .stop s => .stop s
        | .ok ws => .ok ((if r.output then r.out ++ ['\n'] else r.out) :: ws)

/-- The function `parallel()`: standard output and the return value. -/
def parallel (fuel : Nat) (delim : List Char) (delimcnt filecnt : Nat) (lh : List LIST) :
    Outcome (List Char × Nat) :=
  match parallelRounds delim delimcnt fuel filecnt lh with
  | .stop s => .stop s
  | .ok ws => .ok (ws.flatten, 0)

/-! ## The sequential engine -/

/-- The loop `while ((ch = getwc(lp->fp)) != WEOF)` of `sequential` on the
unread characters of one stream, from the given `cnt` and `needdelim`: the text
written and `needdelim` at end of file. -/
def drain (delim : List Char) (delimcnt : Nat) : List Char → Nat → Bool → Outcome (List Char × Bool)
  | [], _, needdelim => .ok ([], needdelim)
  | ch :: more, cnt, needdelim =>
    if needdelim then
      match delim[cnt]? with
      | none => .stop .badAccess
      | some d =>
        match drain delim delimcnt more (if cnt + 1 = delimcnt then 0 else cnt + 1)
            (if ch ≠ '\n' then false else true) with
        | .stop s => .stop s
        | .ok (w, nd) =>
          .ok ((if d ≠ NUL then [d] else []) ++ (if ch ≠ '\n' then [ch] else []) ++ w, nd)
    else
      match drain delim delimcnt more cnt (if ch ≠ '\n' then false else true) with
      | .stop s => .stop s
      | .ok (w, nd) => .ok ((if ch ≠ '\n' then [ch] else []) ++ w, nd)

/-- The body of `STAILQ_FOREACH` in `sequential` for one stream that carries no
open error: the run written for it. -/
def seqRun (delim : List Char) (delimcnt : Nat) (lp : LIST) : Outcome (List Char) :=
  match lp.fp with
  | none => .stop .badAccess
  | some c =>
    match drain delim delimcnt c 0 false with
    | .stop s => .stop s
    | .ok (w, needdelim) => .ok (if needdelim then w ++ ['\n'] else w)

/-- The loop `STAILQ_FOREACH(lp, &lh, entries)` of `sequential` from the given
`failed`: the text written and `failed` at the end. -/
def seqLoop (delim : List Char) (delimcnt : Nat) : List LIST → Int → Outcome (List Char × Int)
  | [], failed => .ok ([], failed)
  | lp :: rest, failed =>
    if lp.err ≠ 0 then
      -- errno = failed = lp->err; warn("%s", lp->name); continue;
      seqLoop delim delimcnt rest lp.err
    else
      match seqRun delim delimcnt lp with
      | .stop s => .stop s
      | .ok w =>
        match seqLoop delim delimcnt rest failed with
        | .stop s => .stop s
        | .ok (ws, f) => .ok (w ++ ws, f)

/-- The function `sequential()`: standard output and the return value
`failed != EXIT_SUCCESS`. -/
def sequential (delim : List Char) (delimcnt : Nat) (lh : List LIST) : Outcome (List Char × Nat) :=
  match seqLoop delim delimcnt lh 0 with
  | .stop s => .stop s
  | .ok (w, failed) => .ok (w, if failed ≠ 0 then 1 else 0)


/-! ## Reference descriptions

The definitions of this section follow the wording of the specification; the
theorems compare the engines above with them. -/

/-- The translation of a raw specification as the specification words it: a
character other than a backslash yields itself, a backslash and the character
after it yield the escaped character.  A backslash with no character after it
has no rule. -/
def refTr : List Char → Option (List Char)
  | [] => some []
  | [c] => if c = '\\' then none else some [c]
  | c :: e :: rest =>
    if c = '\\' then
      (refTr rest).map (fun ys => (if e = 'n' then '\n' else if e = 't' then '\t'
        else if e = '0' then NUL else e) :: ys)
    else (refTr (e :: rest)).map (fun ys => c :: ys)

/-- The line list of a stream content: the content split at newlines, an empty
line counting as a line, a final fragment without newline counting as a line. -/
def splitLines : List Char → List (List Char)
  | [] => []
  | c :: rest =>
    if c = '\n' then [] :: splitLines rest
    else
      match splitLines rest with
      | [] => [[c]]
      | l :: ls => (c :: l) :: ls

/-- The largest line count among the contents. -/
def maxLines (cs : List (List Char)) : Nat :=
  (cs.map (fun c => (splitLines c).length)).foldr max 0

/-- Parallel mode, `sep(j)`: the character `d[(j - 1) mod n]` when it is not
null, nothing otherwise. -/
def refSep (d : List Char) (j : Nat) : List Char :=
  match d[(j - 1) % d.length]? with
  | some ch => if ch = NUL then [] else [ch]
  | none => []

/-- Parallel mode: `sep(j) ++ col(j) ++ sep(j+1) ++ col(j+1) ++ ...` for the
columns from index `j` on. -/
def refJoinFrom (d : List Char) : Nat → List (List Char) → List Char
  | _, [] => []
  | j, col :: cols => refSep d j ++ col ++ refJoinFrom d (j + 1) cols

/-- Parallel mode: `col(0) ++ sep(1) ++ col(1) ++ ... ++ sep(k-1) ++ col(k-1)`. -/
def refRowBody (d : List Char) : List (List Char) → List Char
  | [] => []
  | col :: cols => col ++ refJoinFrom d 1 cols

/-- Parallel mode: row `r` of the reference join, `col(j, r)` being line `r` of
stream `j` when it has one and empty otherwise; the row ends with a newline. -/
def refRow (d : List Char) (cs : List (List Char)) (r : Nat) : List Char :=
  refRowBody d (cs.map (fun c => (splitLines c).getD r [])) ++ ['\n']

/-- Parallel mode: the reference join, rows `0 .. R-1` for `R` the largest line
count. -/
def refParallel (d : List Char) (cs : List (List Char)) : List Char :=
  (List.range (maxLines cs)).flatMap (refRow d cs)

/-- Sequential mode, `sep(i)`: the character `d[i mod n]` when it is not null,
nothing otherwise. -/
def refSeqSep (d : List Char) (i : Nat) : List Char :=
  match d[i % d.length]? with
  | some ch => if ch = NUL then [] else [ch]
  | none => []

/-- Sequential mode: `L_i ++ sep(i) ++ L_(i+1) ++ ... ++ L_m` for the lines from
index `i` on. -/
def refSeqJoin (d : List Char) : Nat → List (List Char) → List Char
  | _, [] => []
  | _, [l] => l
  | i, l :: l' :: ls => l ++ refSeqSep d i ++ refSeqJoin d (i + 1) (l' :: ls)

/-- Sequential mode: the reference run of a stream with content `c`. -/
def refSeqRun (d : List Char) (c : List Char) : List Char :=
  if c = [] then []
  else refSeqJoin d 0 (splitLines c) ++ (if c.getLast? = some '\n' then ['\n'] else [])

/-- Number of rounds that wrote text, given the text each round wrote. -/
def emittedRows (ws : List (List Char)) : Nat :=
  ws.countP (fun w => !w.isEmpty)

/-! ## Auxiliary descriptions of one round of `parallel` -/

/-- The stream pointer after one visit, in a traversal of `parallel` that runs
to its last stream: a line is consumed, a stream at end of file becomes `NULL`. -/
def advFp : Option (List Char) → Option (List Char)
  | none => none
  | some [] => none
  | some (ich :: more) => some (if ich = '\n' then more else (copyLine ich more).2)

/-- The line a visit copies from the stream, empty when there is none. -/
def curLine : Option (List Char) → List Char
  | none => []
  | some [] => []
  | some (ich :: more) => if ich = '\n' then [] else (copyLine ich more).1

/-- The stream is open and has a character to read. -/
def hasLine : Option (List Char) → Bool
  | some (_ :: _) => true
  | _ => false

/-- The stream is open and at end of file. -/
def atEof : Option (List Char) → Bool
  | some [] => true
  | _ => false

/-- The lines left to read from a stream pointer. -/
def linesOf : Option (List Char) → List (List Char)
  | none => []
  | some c => splitLines c

/-- The largest number of lines left to read among the stream pointers. -/
def maxLeft (fps : List (Option (List Char))) : Nat :=
  (fps.map (fun fp => (linesOf fp).length)).foldr max 0

/-- The stream list with the given stream pointers, positions counted from `i`. -/
def attach : Nat → List (Option (List Char)) → List LIST
  | _, [] => []
  | i, fp :: fps => { fp := fp, cnt := i, err := 0 } :: attach (i + 1) fps

/-- The delimiters `sep(c+1) ++ ... ++ sep(c+k)`. -/
def leadText (d : List Char) : Nat → Nat → List Char
  | 0, _ => []
  | k + 1, c => refSep d (c + 1) ++ leadText d k (c + 1)

/-- The text of `m` successive rounds that each read a line from the stream
pointers. -/
def rowsOf (d : List Char) : Nat → List (Option (List Char)) → List (List Char)
  | 0, _ => []
  | m + 1, fps => (refRowBody d (fps.map curLine) ++ ['\n']) :: rowsOf d m (fps.map advFp)

/-! ## Further descriptions of the parallel engine -/

/-- The delimiter at cycle position `i mod n`, nothing when it is null. -/
def cycleDelim (d : List Char) (i : Nat) : List Char :=
  match d[i % d.length]? with
  | some ch => if ch = NUL then [] else [ch]
  | none => []

/-- Number of characters not yet read from the streams of the list. -/
def unread : List LIST → Nat
  | [] => 0
  | lp :: lh => (match lp.fp with
      | none => 0
      | some c => c.length) + unread lh

/-- What a non-null stream pointer points to: standard input, or a stream the
entry opened itself, held as its unread characters. -/
inductive Handle where
  | stdin
  | file (unread : List Char)
deriving DecidableEq, Repr

/-- An entry of the stream list (`LIST`) whose pointer may be `stdin`. -/
structure SLIST where
  fp : Option Handle
  cnt : Nat
  err : Int
deriving DecidableEq, Repr

/-- The unread characters of the stream a pointer points to, `stdin` being the
unread characters of standard input. -/
def unreadOf (stdin : List Char) : Handle → List Char
  | .stdin => stdin
  | .file c => c

/-- The pointer and standard input after reads through the pointer `h` left
`rest` unread in its stream. -/
def afterRead (h : Handle) (rest stdin : List Char) : Handle × List Char :=
  match h with
  | .stdin => (.stdin, rest)
  | .file _ => (.file rest, stdin)

/-- The list `main` builds in parallel mode, from position `i` on, for
arguments that are `-` or a file that opens. -/
def registryFromS : Nat → List Handle → List SLIST
  | _, [] => []
  | i, h :: hs => { fp := some h, cnt := i, err := 0 } :: registryFromS (i + 1) hs

/-- The list `main` builds in parallel mode for the given arguments. -/
def registryS (hs : List Handle) : List SLIST := registryFromS 0 hs

/-- State in which a traversal of the stream list ends: the list and standard
input as the traversal left them, `opencnt`, the flag `output`, and the text
written. -/
structure SweepS where
  lh : List SLIST
  stdin : List Char
  opencnt : Nat
  output : Bool
  out : List Char
deriving DecidableEq, Repr

/-- The body of `STAILQ_FOREACH(lp, &lh, entries)` in `parallel`, run over the
entries not yet visited, from the given standard input, `opencnt` and
`output`. -/
def sweepS (delim : List Char) (delimcnt : Nat) :
    List SLIST → List Char → Nat → Bool → Outcome SweepS
  | [], stdin, opencnt, output =>
    .ok { lh := [], stdin := stdin, opencnt := opencnt, output := output, out := [] }
  | lp :: rest, stdin, opencnt, output =>
    match lp.fp with
    | none =>
      -- if (!lp->fp)
      match (if output && lp.cnt != 0 then putDelim delim delimcnt ((lp.cnt : Int) - 1)
             else .ok []) with
      | .stop s => .stop s
      | .ok w =>
        match sweepS delim delimcnt rest stdin opencnt output with
        | .stop s => .stop s
        | .ok r => .ok { r with lh := lp :: r.lh, out := w ++ r.out }
    | some h =>
      match unreadOf stdin h with
      | [] =>
        -- (ich = getwc(lp->fp)) == WEOF
        if opencnt - 1 = 0 then
          -- if (!--opencnt) break;
          .ok { lh := lp :: rest, stdin := stdin, opencnt := opencnt - 1, output := output,
                out := [] }
        else
          match (if output && lp.cnt != 0 then putDelim delim delimcnt ((lp.cnt : Int) - 1)
                 else .ok []) with
          | .stop s => .stop s
          | .ok w =>
            match sweepS delim delimcnt rest stdin (opencnt - 1) output with
            | .stop s => .stop s
            | .ok r => .ok { r with lh := { lp with fp := none } :: r.lh, out := w ++ r.out }
      | ich :: more =>
        match (if !output then leadLoop delim delimcnt lp.cnt 0
               else putDelim delim delimcnt ((lp.cnt : Int) - 1)) with
        | .stop s => .stop s
        | .ok w =>
          let line := if ich = '\n' then (([] : List Char), more) else copyLine ich more
          let st := afterRead h line.2 stdin
          match sweepS delim delimcnt rest st.2 opencnt true with
          | .stop s => .stop s
          | .ok r =>
            .ok { r with lh := { lp with fp := some st.1 } :: r.lh, out := w ++ line.1 ++ r.out }

/-- The loop `for (opencnt = filecnt; opencnt;)` of `parallel` on a list that
may name standard input: the text written in each round it executes.  The first
argument bounds the number of rounds. -/
def parallelRoundsS (delim : List Char) (delimcnt : Nat) :
    Nat → Nat → List SLIST → List Char → Outcome (List (List Char))
  | 0, opencnt, _, _ => if opencnt = 0 then .ok [] else .stop .outOfFuel
  | fuel + 1, opencnt, lh, stdin =>
    if opencnt = 0 then .ok []
    else
      match sweepS delim delimcnt lh stdin opencnt false with
      | .stop s => .stop s
      | .ok r =>
        match parallelRoundsS delim delimcnt fuel r.opencnt r.lh r.stdin with
        | .stop s => .stop s
        | .ok ws => .ok ((if r.output then r.out ++ ['\n'] else r.out) :: ws)

/-- The function `parallel()` on a list that may name standard input, whose
unread characters are `stdin`: standard output and the return value. -/
def parallelS (fuel : Nat) (delim : List Char) (delimcnt filecnt : Nat) (lh : List SLIST)
    (stdin : List Char) : Outcome (List Char × Nat) :=
  match parallelRoundsS delim delimcnt fuel filecnt lh stdin with
  | .stop s => .stop s
  | .ok ws => .ok (ws.flatten, 0)

/-- The body of `STAILQ_FOREACH` in `sequential` for one entry that carries no
open error: the run written for it, and standard input after it.  The reading
loop runs to the end of the stream the entry points to. -/
def seqRunS (delim : List Char) (delimcnt : Nat) (lp : SLIST) (stdin : List Char) :
    Outcome (List Char × List Char) :=
  match lp.fp with
  | none => .stop .badAccess
  | some h =>
    match drain delim delimcnt (unreadOf stdin h) 0 false with
    | .stop s => .stop s
    | .ok (w, needdelim) =>
      .ok (if needdelim then w ++ ['\n'] else w, (afterRead h [] stdin).2)

/-- The loop `STAILQ_FOREACH(lp, &lh, entries)` of `sequential` on a list that
may name standard input, from the given standard input and `failed`: the text
written, `failed` and standard input at the end. -/
def seqLoopS (delim : List Char) (delimcnt : Nat) :
    List SLIST → List Char → Int → Outcome (List Char × Int × List Char)
  | [], stdin, failed => .ok ([], failed, stdin)
  | lp :: rest, stdin, failed =>
    if lp.err ≠ 0 then
      -- errno = failed = lp->err; warn("%s", lp->name); continue;
      seqLoopS delim delimcnt rest stdin lp.err
    else
      match seqRunS delim delimcnt lp stdin with
      | .stop s => .stop s
      | .ok (w, stdin') =>
        match seqLoopS delim delimcnt rest stdin' failed with
        | .stop s => .stop s
        | .ok (ws, f, stdin'') => .ok (w ++ ws, f, stdin'')

/-- The function `sequential()` on a list that may name standard input, whose
unread characters are `stdin`: standard output and the return value. -/
def sequentialS (delim : List Char) (delimcnt : Nat) (lh : List SLIST) (stdin : List Char) :
    Outcome (List Char × Nat) :=
  match seqLoopS delim delimcnt lh stdin 0 with
  | .stop s => .stop s
  | .ok (w, failed, _) => .ok (w, if failed ≠ 0 then 1 else 0)

/-- The entry with its stream as unread characters of its own. -/
def priv (stdin : List Char) (lp : SLIST) : LIST :=
  { fp := lp.fp.map (unreadOf stdin), cnt := lp.cnt, err := lp.err }

/-- Number of entries of the list whose pointer is `stdin`. -/
def dashes (lh : List SLIST) : Nat :=
  lh.countP (fun lp => decide (lp.fp = some Handle.stdin))

/-- Standard input after `sequential` has visited the entry: at end of file
when the entry carries no open error and points to standard input, untouched
otherwise. -/
def stdinStep (lp : SLIST) (stdin : List Char) : List Char :=
  if lp.err ≠ 0 then stdin
  else
    match lp.fp with
    | some h => (afterRead h [] stdin).2
    | none => stdin

/-- Standard input after `sequential` has visited the entries of the list. -/
def stdinAfter : List SLIST → List Char → List Char
  | [], stdin => stdin
  | lp :: rest, stdin => stdinAfter rest (stdinStep lp stdin)

/-- The list of private streams that holds, for each entry, the characters
`sequential` finds unread in its stream when it reaches the entry. -/
def dealSeq : List SLIST → List Char → List LIST
  | [], _ => []
  | lp :: rest, stdin => priv stdin lp :: dealSeq rest (stdinStep lp stdin)

theorem getElem?_of_drop_eq_cons {mem t : List Char} {p : Nat} {x : Char}
    (h : mem.drop p = x :: t) : mem[p]? = some x := by
  have := List.getElem?_drop mem p 0
  rw [h] at this
  simpa using this.symm

theorem drop_succ_of_drop_eq_cons {mem t : List Char} {p : Nat} {x : Char}
    (h : mem.drop p = x :: t) : mem.drop (p + 1) = t := by
  rw [← List.drop_drop, h]; rfl

theorem lt_length_of_drop_eq_cons {mem t : List Char} {p : Nat} {x : Char}
    (h : mem.drop p = x :: t) : p < mem.length := by
  by_contra hc
  rw [List.drop_of_length_le (by omega)] at h
  cases h

theorem take_succ_set (mem : List Char) (a : Nat) (v : Char) (h : a < mem.length) :
    (mem.set a v).take (a + 1) = mem.take a ++ [v] := by
  rw [List.set_eq_take_append_cons_drop, if_pos h, List.take_append_eq_append_take]
  simp [List.length_take, Nat.min_eq_left (Nat.le_of_lt h)]

/-- The loop of `tr` on a buffer whose unread part is a translatable raw
specification followed by the terminator. -/
theorem trLoop_spec : ∀ (fuel : Nat) (rest ys mem : List Char) (p a : Nat),
    refTr rest = some ys → NUL ∉ rest → a ≤ p → mem.drop p = rest ++ [NUL] →
    rest.length < fuel →
    trLoop fuel mem p a a
      = .ok (mem.take a ++ ys ++ mem.drop (a + ys.length), a + ys.length) := by
  intro fuel
  induction fuel with
  | zero => intro rest ys mem p a _ _ _ _ h; omega
  | succ fuel ih =>
    intro rest ys mem p a href hnul hap hdrop hfuel
    cases rest with
    | nil =>
      simp only [refTr, Option.some.injEq] at href
      subst href
      have h0 : mem[p]? = some NUL := getElem?_of_drop_eq_cons hdrop
      simp [trLoop, h0]
    | cons c rest' =>
      have hdrop' : mem.drop p = c :: (rest' ++ [NUL]) := hdrop
      have h0 : mem[p]? = some c := getElem?_of_drop_eq_cons hdrop'
      have hlt : p < mem.length := lt_length_of_drop_eq_cons hdrop'
      have hd1 : mem.drop (p + 1) = rest' ++ [NUL] := drop_succ_of_drop_eq_cons hdrop'
      have hc : c ≠ NUL := fun e => hnul (by simp [e])
      have hnul' : NUL ∉ rest' := fun e => hnul (by simp [e])
      by_cases hb : c = '\\'
      · subst hb
        cases rest' with
        | nil => simp [refTr] at href
        | cons e rest'' =>
          have hd1' : mem.drop (p + 1) = e :: (rest'' ++ [NUL]) := hd1
          have h1 : mem[p + 1]? = some e := getElem?_of_drop_eq_cons hd1'
          have hd2 : mem.drop (p + 2) = rest'' ++ [NUL] := drop_succ_of_drop_eq_cons hd1'
          simp only [refTr, if_true, Option.map_eq_some'] at href
          obtain ⟨ys', hys', rfl⟩ := href
          have hnul'' : NUL ∉ rest'' := fun e => hnul' (by simp [e])
          have hrec := ih rest'' ys' (mem.set a (escape e)) (p + 2) (a + 1) hys' hnul''
            (by omega) (by rw [List.drop_set_of_lt _ _ (by omega)]; exact hd2)
            (by simp only [List.length_cons] at hfuel; omega)
          rw [trLoop, h0]
          simp only [hc, if_false, if_true, h1, hrec]
          rw [take_succ_set _ _ _ (by omega), List.drop_set_of_lt _ _ (by omega)]
          simp [escape, Nat.add_assoc, Nat.add_comm 1]
      · have href' : ∃ ys', refTr rest' = some ys' ∧ c :: ys' = ys := by
          cases rest' with
          | nil => simpa [refTr, hb] using href
          | cons e rest'' => simpa [refTr, hb] using href
        obtain ⟨ys', hys', rfl⟩ := href'
        have hrec := ih rest' ys' (mem.set a c) (p + 1) (a + 1) hys' hnul'
          (by omega) (by rw [List.drop_set_of_lt _ _ (by omega)]; exact hd1)
          (by simp only [List.length_cons] at hfuel; omega)
        rw [trLoop, h0]
        simp only [hc, if_false, hb, hrec]
        rw [take_succ_set _ _ _ (by omega), List.drop_set_of_lt _ _ (by omega)]
        simp [Nat.add_assoc, Nat.add_comm 1]

/-- The loop of `tr` on a buffer whose unread part holds a backslash with no
character after it: the scan passes the terminator and leaves the buffer. -/
theorem trLoop_dangling : ∀ (fuel : Nat) (rest mem : List Char) (p a : Nat),
    refTr rest = none → NUL ∉ rest → a ≤ p → mem.drop p = rest ++ [NUL] →
    rest.length < fuel →
    trLoop fuel mem p a a = .stop .badAccess := by
  intro fuel
  induction fuel with
  | zero => intro rest mem p a _ _ _ _ h; omega
  | succ fuel ih =>
    intro rest mem p a href hnul hap hdrop hfuel
    cases rest with
    | nil => simp [refTr] at href
    | cons c rest' =>
      have hdrop' : mem.drop p = c :: (rest' ++ [NUL]) := hdrop
      have h0 : mem[p]? = some c := getElem?_of_drop_eq_cons hdrop'
      have hlt : p < mem.length := lt_length_of_drop_eq_cons hdrop'
      have hd1 : mem.drop (p + 1) = rest' ++ [NUL] := drop_succ_of_drop_eq_cons hdrop'
      have hc : c ≠ NUL := fun e => hnul (by simp [e])
      have hnul' : NUL ∉ rest' := fun e => hnul (by simp [e])
      by_cases hb : c = '\\'
      · subst hb
        cases rest' with
        | nil =>
          have hd1' : mem.drop (p + 1) = NUL :: [] := hd1
          have h1 : mem[p + 1]? = some NUL := getElem?_of_drop_eq_cons hd1'
          have hd2 : mem.drop (p + 2) = [] := drop_succ_of_drop_eq_cons hd1'
          have hlen : mem.length ≤ p + 2 := by
            by_contra hcon
            have := List.length_drop (p + 2) mem
            rw [hd2] at this
            simp at this
            omega
          have h2 : (mem.set a (escape NUL))[p + 2]? = none := by
            apply List.getElem?_eq_none
            simp [hlen]
          rw [trLoop, h0]
          simp only [hc, if_false, if_true, h1]
          cases fuel with
          | zero => simp at hfuel
          | succ fuel' => rw [trLoop, h2]
        | cons e rest'' =>
          have hd1' : mem.drop (p + 1) = e :: (rest'' ++ [NUL]) := hd1
          have h1 : mem[p + 1]? = some e := getElem?_of_drop_eq_cons hd1'
          have hd2 : mem.drop (p + 2) = rest'' ++ [NUL] := drop_succ_of_drop_eq_cons hd1'
          simp only [refTr, if_true, Option.map_eq_none'] at href
          have hnul'' : NUL ∉ rest'' := fun e => hnul' (by simp [e])
          have hrec := ih rest'' (mem.set a (escape e)) (p + 2) (a + 1) href hnul''
            (by omega) (by rw [List.drop_set_of_lt _ _ (by omega)]; exact hd2)
            (by simp only [List.length_cons] at hfuel; omega)
          rw [trLoop, h0]
          simp only [hc, if_false, if_true, h1, hrec]
      · have href' : refTr rest' = none := by
          cases rest' with
          | nil => simp [refTr, hb] at href
          | cons e rest'' => simpa [refTr, hb] using href
        have hrec := ih rest' (mem.set a c) (p + 1) (a + 1) href' hnul'
          (by omega) (by rw [List.drop_set_of_lt _ _ (by omega)]; exact hd1)
          (by simp only [List.length_cons] at hfuel; omega)
        rw [trLoop, h0]
        simp only [hc, if_false, hb, hrec]

/-- What `tr` returns on a specification the reference translation covers. -/
theorem tr_of_refTr (raw ys : List Char) (hnul : NUL ∉ raw) (href : refTr raw = some ys) :
    tr (cstr raw)
      = if ys = [] then .stop .noDelimiters
        else .ok (ys ++ (cstr raw).drop ys.length, ys.length) := by
  have h := trLoop_spec ((cstr raw).length + 1) raw ys (cstr raw) 0 0 href hnul
    (Nat.le_refl 0) (by simp [cstr]) (by simp [cstr]; omega)
  simp only [tr, h]
  cases ys with
  | nil => simp
  | cons y ys' => simp

/-- On a specification with a backslash that no character follows, `tr` reads
past the terminator. -/
theorem tr_of_dangling (raw : List Char) (hnul : NUL ∉ raw) (href : refTr raw = none) :
    tr (cstr raw) = .stop .badAccess := by
  have h := trLoop_dangling ((cstr raw).length + 1) raw (cstr raw) 0 0 href hnul
    (Nat.le_refl 0) (by simp [cstr]) (by simp [cstr]; omega)
  simp only [tr, h]

/-- The reference translation yields nothing only on the empty specification. -/
theorem refTr_eq_nil : ∀ (raw : List Char), refTr raw = some [] → raw = []
  | [], _ => rfl
  | [c], h => by
    by_cases hb : c = '\\' <;> simp [refTr, hb] at h
  | c :: e :: rest, h => by
    by_cases hb : c = '\\' <;> simp [refTr, hb] at h

/-- The reference translation never yields more elements than the raw
specification has characters. -/
theorem refTr_length_le : ∀ (raw ys : List Char), refTr raw = some ys → ys.length ≤ raw.length
  | [], ys, h => by simp [refTr] at h; simp [← h]
  | [c], ys, h => by
    by_cases hb : c = '\\'
    · simp [refTr, hb] at h
    · simp [refTr, hb] at h; simp [← h]
  | c :: e :: rest, ys, h => by
    by_cases hb : c = '\\'
    · simp only [refTr, hb, if_true, Option.map_eq_some'] at h
      obtain ⟨ys', hys', rfl⟩ := h
      have := refTr_length_le rest ys' hys'
      simp only [List.length_cons]; omega
    · simp only [refTr, hb, if_false, Option.map_eq_some'] at h
      obtain ⟨ys', hys', rfl⟩ := h
      have := refTr_length_le (e :: rest) ys' hys'
      simp only [List.length_cons] at this ⊢; omega

/-- A specification without a backslash translates to itself. -/
theorem refTr_literal : ∀ (raw : List Char), '\\' ∉ raw → refTr raw = some raw
  | [], _ => rfl
  | [c], h => by
    have hb : c ≠ '\\' := fun e => h (by simp [e])
    simp [refTr, hb]
  | c :: e :: rest, h => by
    have hb : c ≠ '\\' := fun e => h (by simp [e])
    have h' : '\\' ∉ e :: rest := fun m => h (List.mem_cons_of_mem _ m)
    simp [refTr, hb, refTr_literal (e :: rest) h']


/-! ## Delimiter selection -/

theorem delimAt_natCast (d : List Char) (hd : d ≠ []) (c : Nat) :
    delimAt d d.length (c : Int) = .ok (d.getD (c % d.length) NUL) := by
  have hpos : 0 < d.length := List.length_pos.mpr hd
  have hlt : c % d.length < d.length := Nat.mod_lt _ hpos
  have hne : d.length ≠ 0 := by omega
  have hmod : Int.tmod (c : Int) (d.length : Int) = ((c % d.length : Nat) : Int) :=
    (Int.ofNat_tmod c d.length).symm
  have hnn : ¬ ((c % d.length : Nat) : Int) < 0 := by omega
  simp only [delimAt, hne, if_false, hmod, hnn, Int.toNat_ofNat]
  rw [List.getElem?_eq_getElem hlt, List.getD_eq_getElem _ _ hlt]

theorem putDelim_natCast (d : List Char) (hd : d ≠ []) (c : Nat) :
    putDelim d d.length (c : Int) = .ok (refSep d (c + 1)) := by
  have hpos : 0 < d.length := List.length_pos.mpr hd
  have hlt : c % d.length < d.length := Nat.mod_lt _ hpos
  simp only [putDelim, delimAt_natCast d hd, refSep, Nat.add_sub_cancel]
  rw [List.getElem?_eq_getElem hlt, List.getD_eq_getElem _ _ hlt]

theorem putDelim_pred (d : List Char) (hd : d ≠ []) (i : Nat) (hi : 1 ≤ i) :
    putDelim d d.length ((i : Int) - 1) = .ok (refSep d i) := by
  obtain ⟨j, rfl⟩ : ∃ j, i = j + 1 := ⟨i - 1, by omega⟩
  have : ((j + 1 : Nat) : Int) - 1 = (j : Int) := by omega
  rw [this]
  exact putDelim_natCast d hd j

theorem leadLoop_eq (d : List Char) (hd : d ≠ []) :
    ∀ (k c : Nat), leadLoop d d.length k c = .ok (leadText d k c)
  | 0, _ => rfl
  | k + 1, c => by
    simp only [leadLoop, putDelim_natCast d hd, leadLoop_eq d hd k (c + 1), leadText]

theorem leadText_succ (d : List Char) :
    ∀ (k c : Nat), leadText d (k + 1) c = leadText d k c ++ refSep d (c + k + 1)
  | 0, c => by simp [leadText]
  | k + 1, c => by
    rw [leadText, leadText_succ d k (c + 1)]
    conv_rhs => rw [leadText]
    simp [Nat.add_assoc, Nat.add_comm 1 k]


/-! ## One round of `parallel` -/

/-- A traversal entered after output has started, at a position other than the
first, that cannot bring `opencnt` to zero. -/
theorem sweep_started (d : List Char) (hd : d ≠ []) :
    ∀ (fps : List (Option (List Char))) (i opencnt : Nat), 1 ≤ i →
      fps.countP atEof < opencnt →
      sweep d d.length (attach i fps) opencnt true
        = .ok { lh := attach i (fps.map advFp), opencnt := opencnt - fps.countP atEof,
                output := true, out := refJoinFrom d i (fps.map curLine) }
  | [], i, opencnt, _, _ => by simp [attach, sweep, refJoinFrom]
  | none :: fps, i, opencnt, hi, h => by
    have hrec := sweep_started d hd fps (i + 1) opencnt (by omega) (by simpa [atEof] using h)
    have hi0 : i ≠ 0 := by omega
    simp [attach, sweep, hi0, putDelim_pred d hd i hi, hrec, advFp, curLine, refJoinFrom, atEof]
  | some [] :: fps, i, opencnt, hi, h => by
    have h' : fps.countP atEof + 1 < opencnt := by simpa [atEof] using h
    have hrec := sweep_started d hd fps (i + 1) (opencnt - 1) (by omega) (by omega)
    have hi0 : i ≠ 0 := by omega
    have ho : opencnt - 1 ≠ 0 := by omega
    simp [attach, sweep, hi0, ho, putDelim_pred d hd i hi, hrec, advFp, curLine, refJoinFrom,
      atEof]
    omega
  | some (ich :: more) :: fps, i, opencnt, hi, h => by
    have hrec := sweep_started d hd fps (i + 1) opencnt (by omega) (by simpa [atEof] using h)
    by_cases hn : ich = '\n'
    · simp [attach, sweep, hn, putDelim_pred d hd i hi, hrec, advFp, curLine, refJoinFrom, atEof]
    · simp [attach, sweep, hn, putDelim_pred d hd i hi, hrec, advFp, curLine, refJoinFrom, atEof]

/-- A traversal entered before output has started, at a position other than the
first, that cannot bring `opencnt` to zero. -/
theorem sweep_fresh (d : List Char) (hd : d ≠ []) :
    ∀ (fps : List (Option (List Char))) (j opencnt : Nat),
      fps.countP atEof < opencnt →
      sweep d d.length (attach (j + 1) fps) opencnt false
        = .ok { lh := attach (j + 1) (fps.map advFp), opencnt := opencnt - fps.countP atEof,
                output := fps.any hasLine,
                out := if fps.any hasLine then
                    leadText d j 0 ++ refJoinFrom d (j + 1) (fps.map curLine)
                  else [] }
  | [], j, opencnt, _ => by simp [attach, sweep]
  | none :: fps, j, opencnt, h => by
    have hrec := sweep_fresh d hd fps (j + 1) opencnt (by simpa [atEof] using h)
    simp only [attach, sweep, hrec, Bool.false_and, Bool.false_eq_true, if_false]
    by_cases ha : fps.any hasLine = true
    · simp [ha, hasLine, advFp, curLine, refJoinFrom, atEof, leadText_succ]
    · simp [ha, hasLine, advFp, curLine, atEof]
  | some [] :: fps, j, opencnt, h => by
    have h' : fps.countP atEof + 1 < opencnt := by simpa [atEof] using h
    have hrec := sweep_fresh d hd fps (j + 1) (opencnt - 1) (by omega)
    have ho : opencnt - 1 ≠ 0 := by omega
    simp only [attach, sweep, ho, hrec, Bool.false_and, Bool.false_eq_true, if_false]
    by_cases ha : fps.any hasLine = true
    · simp [ha, hasLine, advFp, curLine, refJoinFrom, atEof, leadText_succ]
      omega
    · simp [ha, hasLine, advFp, curLine, atEof]
      omega
  | some (ich :: more) :: fps, j, opencnt, h => by
    have hrec := sweep_started d hd fps (j + 1 + 1) opencnt (by omega)
      (by simpa [atEof] using h)
    by_cases hn : ich = '\n'
    · simp [attach, sweep, hn, leadLoop_eq d hd, hrec, advFp, curLine, refJoinFrom, atEof,
        hasLine, leadText_succ]
    · simp [attach, sweep, hn, leadLoop_eq d hd, hrec, advFp, curLine, refJoinFrom, atEof,
        hasLine, leadText_succ]

/-- A round that cannot bring `opencnt` to zero, on the stream list with
positions counted from 0. -/
theorem sweep_round (d : List Char) (hd : d ≠ []) :
    ∀ (fps : List (Option (List Char))) (opencnt : Nat),
      fps.countP atEof < opencnt →
      sweep d d.length (attach 0 fps) opencnt false
        = .ok { lh := attach 0 (fps.map advFp), opencnt := opencnt - fps.countP atEof,
                output := fps.any hasLine,
                out := if fps.any hasLine then refRowBody d (fps.map curLine) else [] }
  | [], opencnt, _ => by simp [attach, sweep]
  | none :: fps, opencnt, h => by
    have hrec := sweep_fresh d hd fps 0 opencnt (by simpa [atEof] using h)
    simp only [attach, sweep, hrec, Bool.false_and, Bool.false_eq_true, if_false]
    by_cases ha : fps.any hasLine = true
    · simp [ha, hasLine, advFp, curLine, refRowBody, atEof, leadText]
    · simp [ha, hasLine, advFp, curLine, atEof]
  | some [] :: fps, opencnt, h => by
    have h' : fps.countP atEof + 1 < opencnt := by simpa [atEof] using h
    have hrec := sweep_fresh d hd fps 0 (opencnt - 1) (by omega)
    have ho : opencnt - 1 ≠ 0 := by omega
    simp only [attach, sweep, ho, hrec, Bool.false_and, Bool.false_eq_true, if_false]
    by_cases ha : fps.any hasLine = true
    · simp [ha, hasLine, advFp, curLine, refRowBody, atEof, leadText]
      omega
    · simp [ha, hasLine, advFp, curLine, atEof]
      omega
  | some (ich :: more) :: fps, opencnt, h => by
    have hrec := sweep_started d hd fps 1 opencnt (by omega) (by simpa [atEof] using h)
    by_cases hn : ich = '\n'
    · simp [attach, sweep, hn, leadLoop, hrec, advFp, curLine, refRowBody, atEof, hasLine]
    · simp [attach, sweep, hn, leadLoop, hrec, advFp, curLine, refRowBody, atEof, hasLine]

/-- The round in which every stream still open is at end of file: it ends with
`opencnt` zero and writes nothing. -/
theorem sweep_last (d : List Char) (n : Nat) :
    ∀ (fps : List (Option (List Char))) (i opencnt : Nat), 1 ≤ opencnt →
      fps.any hasLine = false → fps.countP atEof = opencnt →
      ∃ lh, sweep d n (attach i fps) opencnt false
        = .ok { lh := lh, opencnt := 0, output := false, out := [] }
  | [], i, opencnt, h1, _, h => by simp at h; omega
  | none :: fps, i, opencnt, h1, ha, h => by
    obtain ⟨lh, hrec⟩ := sweep_last d n fps (i + 1) opencnt h1
      (by simpa [hasLine] using ha) (by simpa [atEof] using h)
    exact ⟨{ fp := none, cnt := i, err := 0 } :: lh, by simp [attach, sweep, hrec]⟩
  | some [] :: fps, i, opencnt, h1, ha, h => by
    have h' : fps.countP atEof + 1 = opencnt := by simpa [atEof] using h
    by_cases ho : opencnt - 1 = 0
    · exact ⟨attach i (some [] :: fps), by simp [attach, sweep, ho]⟩
    · obtain ⟨lh, hrec⟩ := sweep_last d n fps (i + 1) (opencnt - 1) (by omega)
        (by simpa [hasLine] using ha) (by omega)
      exact ⟨{ fp := none, cnt := i, err := 0 } :: lh, by simp [attach, sweep, ho, hrec]⟩
  | some (ich :: more) :: fps, i, opencnt, _, ha, _ => by simp [hasLine] at ha


/-! ## Lines -/

theorem splitLines_copyLine : ∀ (more : List Char) (ich : Char), ich ≠ '\n' →
    splitLines (ich :: more) = (copyLine ich more).1 :: splitLines (copyLine ich more).2
  | [], ich, h => by simp [splitLines, copyLine, h]
  | c :: more, ich, h => by
    by_cases hc : c = '\n'
    · subst hc
      simp [splitLines, copyLine, h]
    · have hrec := splitLines_copyLine more c hc
      rw [splitLines, if_neg h, hrec]
      simp [copyLine, hc]

theorem linesOf_eq (fp : Option (List Char)) :
    linesOf fp = if hasLine fp then curLine fp :: linesOf (advFp fp) else [] := by
  match fp with
  | none => simp [linesOf, hasLine]
  | some [] => simp [linesOf, hasLine, splitLines]
  | some (ich :: more) =>
    by_cases hn : ich = '\n'
    · subst hn
      simp [linesOf, hasLine, curLine, advFp, splitLines]
    · simp [linesOf, hasLine, curLine, advFp, hn, splitLines_copyLine more ich hn]

theorem linesOf_advFp (fp : Option (List Char)) : linesOf (advFp fp) = (linesOf fp).tail := by
  rw [linesOf_eq fp]
  match fp with
  | none => simp [hasLine, advFp, linesOf]
  | some [] => simp [hasLine, advFp, linesOf]
  | some (ich :: more) => simp [hasLine]

theorem curLine_eq (fp : Option (List Char)) : curLine fp = (linesOf fp).getD 0 [] := by
  rw [linesOf_eq fp]
  match fp with
  | none => simp [hasLine, curLine]
  | some [] => simp [hasLine, curLine]
  | some (ich :: more) => simp [hasLine]

theorem hasLine_iff (fp : Option (List Char)) : hasLine fp = true ↔ 0 < (linesOf fp).length := by
  rw [linesOf_eq fp]
  cases h : hasLine fp <;> simp

theorem maxLeft_cons (fp : Option (List Char)) (fps : List (Option (List Char))) :
    maxLeft (fp :: fps) = max (linesOf fp).length (maxLeft fps) := rfl

theorem maxLeft_advFp : ∀ (fps : List (Option (List Char))),
    maxLeft (fps.map advFp) = maxLeft fps - 1
  | [] => rfl
  | fp :: fps => by
    rw [List.map_cons, maxLeft_cons, maxLeft_cons, maxLeft_advFp fps, linesOf_advFp,
      List.length_tail]
    omega

theorem any_hasLine_iff : ∀ (fps : List (Option (List Char))),
    fps.any hasLine = true ↔ 0 < maxLeft fps
  | [] => by simp [maxLeft]
  | fp :: fps => by
    rw [List.any_cons, Bool.or_eq_true, any_hasLine_iff fps, hasLine_iff, maxLeft_cons]
    omega

theorem countP_isSome_split : ∀ (fps : List (Option (List Char))),
    fps.countP Option.isSome = fps.countP atEof + fps.countP hasLine
  | [] => rfl
  | none :: fps => by simp [atEof, hasLine, countP_isSome_split fps]
  | some [] :: fps => by simp [atEof, hasLine, countP_isSome_split fps]; omega
  | some (_ :: _) :: fps => by simp [atEof, hasLine, countP_isSome_split fps]; omega

theorem countP_isSome_advFp : ∀ (fps : List (Option (List Char))),
    (fps.map advFp).countP Option.isSome = fps.countP hasLine
  | [] => rfl
  | none :: fps => by simp [advFp, hasLine, countP_isSome_advFp fps]
  | some [] :: fps => by simp [advFp, hasLine, countP_isSome_advFp fps]
  | some (_ :: _) :: fps => by simp [advFp, hasLine, countP_isSome_advFp fps]

theorem countP_hasLine_pos (fps : List (Option (List Char))) :
    0 < fps.countP hasLine ↔ fps.any hasLine = true := by
  rw [List.countP_pos_iff, List.any_eq_true]

/-! ## The rounds of `parallel` -/

/-- The rounds of `parallel` from a state in which `opencnt` counts the open
streams and at least one stream is open: one row for each of the `maxLeft`
rounds that read a line, then one round that writes nothing. -/
theorem parallelRounds_spec (d : List Char) (hd : d ≠ []) :
    ∀ (m fuel : Nat) (fps : List (Option (List Char))), maxLeft fps = m → m < fuel →
      1 ≤ fps.countP Option.isSome →
      parallelRounds d d.length fuel (fps.countP Option.isSome) (attach 0 fps)
        = .ok (rowsOf d m fps ++ [[]])
  | 0, 0, _, _, h, _ => by omega
  | 0, fuel + 1, fps, hm, _, hopen => by
    have hany : fps.any hasLine = false := by
      cases h : fps.any hasLine
      · rfl
      · rw [any_hasLine_iff] at h; omega
    have hcnt : fps.countP hasLine = 0 := by
      by_contra hc
      have := (countP_hasLine_pos fps).mp (by omega)
      rw [hany] at this
      cases this
    have hsplit := countP_isSome_split fps
    obtain ⟨lh, hlast⟩ := sweep_last d d.length fps 0 (fps.countP Option.isSome) hopen hany
      (by omega)
    have ho : fps.countP Option.isSome ≠ 0 := by omega
    rw [parallelRounds, if_neg ho, hlast]
    cases fuel <;> simp [parallelRounds, rowsOf]
  | m + 1, 0, _, _, h, _ => by omega
  | m + 1, fuel + 1, fps, hm, hfuel, hopen => by
    have hany : fps.any hasLine = true := by
      rw [any_hasLine_iff]; omega
    have hpos := (countP_hasLine_pos fps).mpr hany
    have hsplit := countP_isSome_split fps
    have hround := sweep_round d hd fps (fps.countP Option.isSome) (by omega)
    have hopen' : fps.countP Option.isSome - fps.countP atEof
        = (fps.map advFp).countP Option.isSome := by
      rw [countP_isSome_advFp]; omega
    have hrec := parallelRounds_spec d hd m fuel (fps.map advFp)
      (by rw [maxLeft_advFp, hm]; rfl) (by omega)
      (by rw [countP_isSome_advFp]; omega)
    have ho : fps.countP Option.isSome ≠ 0 := by omega
    rw [parallelRounds, if_neg ho, hround]
    simp only [hopen', hrec, hany, if_true, rowsOf, List.cons_append]


/-! ## The rounds against the reference join -/

theorem rowsOf_eq (d : List Char) : ∀ (m : Nat) (fps : List (Option (List Char))),
    rowsOf d m fps
      = (List.range m).map
          (fun r => refRowBody d (fps.map (fun fp => (linesOf fp).getD r [])) ++ ['\n'])
  | 0, _ => rfl
  | m + 1, fps => by
    have hcur : fps.map curLine = fps.map (fun fp => (linesOf fp).getD 0 []) :=
      List.map_congr_left (fun fp _ => curLine_eq fp)
    have htail : ∀ (r : Nat), (fps.map advFp).map (fun fp => (linesOf fp).getD r [])
        = fps.map (fun fp => (linesOf fp).getD (r + 1) []) := by
      intro r
      rw [List.map_map]
      apply List.map_congr_left
      intro fp _
      simp only [Function.comp, linesOf_advFp]
      cases linesOf fp <;> simp
    rw [rowsOf, rowsOf_eq d m (fps.map advFp), List.range_succ_eq_map, List.map_cons,
      List.map_map, hcur]
    congr 1
    apply List.map_congr_left
    intro r _
    simp only [Function.comp, htail]

theorem registryFrom_eq_attach : ∀ (cs : List (List Char)) (i : Nat),
    registryFrom i cs = attach i (cs.map some)
  | [], _ => rfl
  | c :: cs, i => by simp [registryFrom, attach, registryFrom_eq_attach cs (i + 1)]

theorem countP_isSome_map_some (cs : List (List Char)) :
    (cs.map some).countP Option.isSome = cs.length := by
  induction cs with
  | nil => rfl
  | cons c cs ih => simp [ih]

theorem maxLeft_map_some (cs : List (List Char)) : maxLeft (cs.map some) = maxLines cs := by
  rw [maxLeft, maxLines, List.map_map]
  rfl

theorem map_linesOf_some (cs : List (List Char)) (r : Nat) :
    (cs.map some).map (fun fp => (linesOf fp).getD r [])
      = cs.map (fun c => (splitLines c).getD r []) := by
  rw [List.map_map]
  rfl

/-- The text `parallel` writes round by round on the list `main` builds: a row
of the reference join for each of the first `maxLines` rounds, then, when there
is a stream at all, one round that writes nothing. -/
theorem parallelRounds_registry (d : List Char) (hd : d ≠ []) (cs : List (List Char))
    (fuel : Nat) (hfuel : maxLines cs < fuel) :
    parallelRounds d d.length fuel cs.length (registry cs)
      = .ok ((List.range (maxLines cs)).map (refRow d cs) ++ (if cs = [] then [] else [[]])) := by
  cases cs with
  | nil =>
    cases fuel <;> simp [parallelRounds, maxLines]
  | cons c cs' =>
    have h := parallelRounds_spec d hd (maxLines (c :: cs')) fuel ((c :: cs').map some)
      (maxLeft_map_some _) hfuel (by rw [countP_isSome_map_some]; simp)
    rw [countP_isSome_map_some] at h
    rw [registry, registryFrom_eq_attach, h, rowsOf_eq]
    simp only [map_linesOf_some, if_neg (List.cons_ne_nil c cs')]
    rfl


/-! ## Parallel merge: the claims -/

theorem maxLines_eq_zero_of_empty : ∀ (cs : List (List Char)), (∀ c ∈ cs, c = []) →
    maxLines cs = 0
  | [], _ => rfl
  | c :: cs, h => by
    have hc : c = [] := h c (List.mem_cons_self _ _)
    have hrec := maxLines_eq_zero_of_empty cs (fun x hx => h x (List.mem_cons_of_mem _ hx))
    subst hc
    simp only [maxLines, List.map_cons, List.foldr_cons, splitLines, List.length_nil] at hrec ⊢
    omega

/-- The reference join on a list whose entries each own their stream: for
every non-empty delimiter sequence `d` and every such list with contents `cs`,
`parallel()` returns 0 once it is given at least one
round more than the largest line count, and its output is the reference join:
for each row `r` below the largest line count, `col(0,r) ++ sep(1) ++ col(1,r)
++ ... ++ sep(k-1) ++ col(k-1,r) ++ "\n"`. -/
theorem parallel_eq_reference (d : List Char) (cs : List (List Char)) (fuel : Nat)
    (hd : d ≠ []) (hfuel : maxLines cs < fuel) :
    parallel fuel d d.length cs.length (registry cs) = .ok (refParallel d cs, 0) := by
  rw [parallel, parallelRounds_registry d hd cs fuel hfuel]
  by_cases hcs : cs = [] <;> simp [hcs, refParallel, List.flatMap_def]

/-- The two scenarios of the specification on lists of private streams: files
`1 2 3` and `a b` with delimiter `,`; three one-line files with delimiters `,`
and `;`. -/
theorem parallel_eq_reference_witness :
    parallel 4 [','] 1 2 (registry ["1\n2\n3\n".toList, "a\nb\n".toList])
        = .ok ("1,a\n2,b\n3,\n".toList, 0)
      ∧ parallel 2 [',', ';'] 2 3 (registry ["col0\n".toList, "col1\n".toList, "col2\n".toList])
        = .ok ("col0,col1;col2\n".toList, 0) :=
  ⟨parallel_eq_reference [','] ["1\n2\n3\n".toList, "a\nb\n".toList] 4 (by decide) (by decide),
   parallel_eq_reference [',', ';'] ["col0\n".toList, "col1\n".toList, "col2\n".toList] 2
    (by decide) (by decide)⟩

/-- The rows on a list whose entries each own their stream: on every such
list, given at least one round more than the largest line count, the rounds of `parallel()` that write text are as many as
the largest line count among the streams, each of them ends with the
row-terminating newline, and nothing is written when every stream is empty. -/
theorem parallel_row_count (d : List Char) (cs : List (List Char)) (fuel : Nat)
    (hd : d ≠ []) (hfuel : maxLines cs < fuel) :
    ∃ ws, parallelRounds d d.length fuel cs.length (registry cs) = .ok ws
      ∧ parallel fuel d d.length cs.length (registry cs) = .ok (ws.flatten, 0)
      ∧ emittedRows ws = maxLines cs
      ∧ (∀ w ∈ ws, w ≠ [] → ∃ body, w = body ++ ['\n'])
      ∧ ((∀ c ∈ cs, c = []) → ws.flatten = []) := by
  refine ⟨_, parallelRounds_registry d hd cs fuel hfuel, ?_, ?_, ?_, ?_⟩
  · rw [parallel, parallelRounds_registry d hd cs fuel hfuel]
  · have hrows : ∀ (l : List Nat),
        List.countP (fun w => !w.isEmpty) (l.map (refRow d cs)) = l.length := by
      intro l
      induction l with
      | nil => rfl
      | cons r l ih => simp [refRow, ih]
    rw [emittedRows, List.countP_append, hrows]
    by_cases hcs : cs = [] <;> simp [hcs]
  · intro w hw hne
    rw [List.mem_append] at hw
    rcases hw with hw | hw
    · obtain ⟨r, _, rfl⟩ := List.mem_map.mp hw
      exact ⟨_, rfl⟩
    · by_cases hcs : cs = []
      · simp [hcs] at hw
      · simp [hcs] at hw
        exact absurd hw hne
  · intro hall
    rw [maxLines_eq_zero_of_empty cs hall]
    by_cases hcs : cs = [] <;> simp [hcs]

/-- Three private streams of 2, 4 and 0 lines: four rows. -/
theorem parallel_row_count_witness :
    ∃ ws, parallelRounds [','] 1 5 3
          (registry ["a\nb".toList, "\n\n\n\n".toList, "".toList]) = .ok ws
      ∧ parallel 5 [','] 1 3 (registry ["a\nb".toList, "\n\n\n\n".toList, "".toList])
          = .ok (ws.flatten, 0)
      ∧ emittedRows ws = 4
      ∧ (∀ w ∈ ws, w ≠ [] → ∃ body, w = body ++ ['\n'])
      ∧ ((∀ c ∈ ["a\nb".toList, "\n\n\n\n".toList, "".toList], c = []) → ws.flatten = []) :=
  parallel_row_count [','] ["a\nb".toList, "\n\n\n\n".toList, "".toList] 5 (by decide)
    (by decide)


/-! ## One run of `sequential` -/

theorem next_cycle (n i : Nat) (hn : 0 < n) :
    (if i % n + 1 = n then 0 else i % n + 1) = (i + 1) % n := by
  have hlt : i % n < n := Nat.mod_lt _ hn
  have key : (i + 1) % n = (i % n + 1) % n := (Nat.mod_add_mod i n 1).symm
  rw [key]
  by_cases h : i % n + 1 = n
  · rw [if_pos h, h, Nat.mod_self]
  · rw [if_neg h, Nat.mod_eq_of_lt (show i % n + 1 < n by omega)]

theorem splitLines_cons_ne_nil (ch : Char) (more : List Char) :
    splitLines (ch :: more) ≠ [] := by
  by_cases h : ch = '\n'
  · simp [splitLines, h]
  · rw [splitLines, if_neg h]
    cases splitLines more <;> simp

theorem refSeqJoin_cons_head (d : List Char) (i : Nat) (ch : Char) (l : List Char)
    (ls : List (List Char)) :
    refSeqJoin d i ((ch :: l) :: ls) = ch :: refSeqJoin d i (l :: ls) := by
  cases ls <;> simp [refSeqJoin]

theorem refSeqJoin_splitLines_cons (d : List Char) (i : Nat) (ch : Char) (more : List Char)
    (h : ch ≠ '\n') :
    refSeqJoin d i (splitLines (ch :: more)) = ch :: refSeqJoin d i (splitLines more) := by
  rw [splitLines, if_neg h]
  cases hs : splitLines more with
  | nil => simp [refSeqJoin]
  | cons l ls => exact refSeqJoin_cons_head d i ch l ls

theorem refSeqJoin_splitLines_newline (d : List Char) (i : Nat) (c2 : Char) (m2 : List Char) :
    refSeqJoin d i (splitLines ('\n' :: c2 :: m2))
      = refSeqSep d i ++ refSeqJoin d (i + 1) (splitLines (c2 :: m2)) := by
  have hne := splitLines_cons_ne_nil c2 m2
  rw [splitLines, if_pos rfl]
  cases hs : splitLines (c2 :: m2) with
  | nil => exact absurd hs hne
  | cons l ls => simp [refSeqJoin]

/-- A read with `needdelim` set writes the delimiter at `cnt`, steps the cycle,
and goes on as a read with `needdelim` clear. -/
theorem drain_needdelim (d : List Char) (n : Nat) (ch : Char) (more : List Char) (cnt : Nat) :
    drain d n (ch :: more) cnt true
      = match d[cnt]? with
        | none => .stop .badAccess
        | some dl =>
          match drain d n (ch :: more) (if cnt + 1 = n then 0 else cnt + 1) false with
          | .stop s => .stop s
          | .ok (w, nd) => .ok ((if dl ≠ NUL then [dl] else []) ++ w, nd) := by
  cases hd : d[cnt]? with
  | none => simp [drain, hd]
  | some dl =>
    simp only [drain, hd, if_true, Bool.false_eq_true, if_false]
    cases drain d n more (if cnt + 1 = n then 0 else cnt + 1) (if ch ≠ '\n' then false else true)
      with
    | stop s => rfl
    | ok r => simp

theorem refSeqSep_eq (d : List Char) (hd : d ≠ []) (i : Nat) :
    ∃ dl, d[i % d.length]? = some dl ∧ refSeqSep d i = if dl ≠ NUL then [dl] else [] := by
  have hlt : i % d.length < d.length := Nat.mod_lt _ (List.length_pos.mpr hd)
  refine ⟨d[i % d.length], List.getElem?_eq_getElem hlt, ?_⟩
  rw [refSeqSep, List.getElem?_eq_getElem hlt]
  by_cases h : d[i % d.length] = NUL <;> simp [h]

/-- The reading loop of `sequential` against the reference join of the lines. -/
theorem drain_eq (d : List Char) (hd : d ≠ []) : ∀ (c : List Char) (i : Nat),
    drain d d.length c (i % d.length) false
      = .ok (refSeqJoin d i (splitLines c), decide (c.getLast? = some '\n'))
  | [], i => by simp [drain, splitLines, refSeqJoin]
  | ch :: more, i => by
    by_cases h : ch = '\n'
    · subst h
      cases more with
      | nil => simp [drain, splitLines, refSeqJoin]
      | cons c2 m2 =>
        obtain ⟨dl, hdl, hsep⟩ := refSeqSep_eq d hd i
        have hrec := drain_eq d hd (c2 :: m2) (i + 1)
        have hstep : drain d d.length ('\n' :: c2 :: m2) (i % d.length) false
            = match drain d d.length (c2 :: m2) (i % d.length) true with
              | .stop s => .stop s
              | .ok (w, nd) => .ok (w, nd) := by
          rw [drain]
          simp
        rw [hstep, drain_needdelim, hdl]
        simp only [next_cycle d.length i (List.length_pos.mpr hd), hrec,
          refSeqJoin_splitLines_newline, hsep, List.getLast?_cons_cons]
    · have hrec := drain_eq d hd more i
      rw [drain]
      simp only [Bool.false_eq_true, if_false, h, ne_eq, not_false_eq_true, if_true, hrec,
        refSeqJoin_splitLines_cons d i ch more h]
      cases more with
      | nil => simp [h]
      | cons c2 m2 => simp [List.getLast?_cons_cons]

/-- The run `sequential` writes for an open stream is the reference run. -/
theorem seqRun_eq (d : List Char) (hd : d ≠ []) (c : List Char) (cnt : Nat) (err : Int) :
    seqRun d d.length { fp := some c, cnt := cnt, err := err } = .ok (refSeqRun d c) := by
  have h := drain_eq d hd c 0
  rw [Nat.zero_mod] at h
  simp only [seqRun, h, refSeqRun]
  cases c with
  | nil => simp [splitLines, refSeqJoin]
  | cons ch more =>
    by_cases he : (ch :: more).getLast? = some '\n' <;> simp [he]


/-! ## The end of a run -/

theorem not_newline_mem_splitLines : ∀ (c : List Char), ∀ l ∈ splitLines c, '\n' ∉ l
  | [], l, hl => by simp [splitLines] at hl
  | ch :: more, l, hl => by
    have hrec := not_newline_mem_splitLines more
    by_cases h : ch = '\n'
    · rw [splitLines, if_pos h, List.mem_cons] at hl
      rcases hl with rfl | hl
      · simp
      · exact hrec l hl
    · rw [splitLines, if_neg h] at hl
      cases hs : splitLines more with
      | nil =>
        rw [hs] at hl
        simp only [List.mem_singleton] at hl
        subst hl
        simpa using fun e => h e.symm
      | cons l0 ls =>
        rw [hs] at hl hrec
        simp only [List.mem_cons] at hl
        rcases hl with rfl | hl
        · have h0 := hrec l0 (List.mem_cons_self _ _)
          simp only [List.mem_cons, not_or]
          exact ⟨fun e => h e.symm, h0⟩
        · exact hrec l (List.mem_cons_of_mem _ hl)

theorem mem_refSeqSep (d : List Char) (i : Nat) (x : Char) (hx : x ∈ refSeqSep d i) : x ∈ d := by
  rw [refSeqSep] at hx
  cases hg : d[i % d.length]? with
  | none => simp [hg] at hx
  | some dl =>
    rw [hg] at hx
    by_cases hn : dl = NUL
    · simp [hn] at hx
    · simp only [hn, if_false, List.mem_singleton] at hx
      subst hx
      exact List.getElem?_mem hg

theorem not_newline_mem_refSeqJoin (d : List Char) (hd : '\n' ∉ d) :
    ∀ (ls : List (List Char)) (i : Nat), (∀ l ∈ ls, '\n' ∉ l) → '\n' ∉ refSeqJoin d i ls
  | [], _, _ => by simp [refSeqJoin]
  | [l], _, h => by simpa [refSeqJoin] using h l (List.mem_singleton_self l)
  | l :: l' :: ls, i, h => by
    have h0 := h l (List.mem_cons_self _ _)
    have hrec := not_newline_mem_refSeqJoin d hd (l' :: ls) (i + 1)
      (fun x hx => h x (List.mem_cons_of_mem _ hx))
    have hs : '\n' ∉ refSeqSep d i := fun hx => hd (mem_refSeqSep d i _ hx)
    simp only [refSeqJoin, List.mem_append, not_or]
    exact ⟨⟨h0, hs⟩, hrec⟩

theorem getLast?_refSeqJoin (d : List Char) : ∀ (c : List Char) (i : Nat), c ≠ [] →
    c.getLast? ≠ some '\n' → (refSeqJoin d i (splitLines c)).getLast? = c.getLast?
  | [], _, h, _ => absurd rfl h
  | [ch], i, _, h => by
    have hn : ch ≠ '\n' := by simpa using h
    rw [refSeqJoin_splitLines_cons d i ch [] hn]
    simp [splitLines, refSeqJoin]
  | ch :: c2 :: m2, i, _, h => by
    rw [List.getLast?_cons_cons] at h ⊢
    by_cases hn : ch = '\n'
    · subst hn
      have hrec := getLast?_refSeqJoin d (c2 :: m2) (i + 1) (List.cons_ne_nil _ _) h
      have hne : refSeqJoin d (i + 1) (splitLines (c2 :: m2)) ≠ [] := by
        intro e
        rw [e] at hrec
        exact absurd hrec.symm (by simp)
      rw [refSeqJoin_splitLines_newline, List.getLast?_append_of_ne_nil _ hne, hrec]
    · have hrec := getLast?_refSeqJoin d (c2 :: m2) i (List.cons_ne_nil _ _) h
      rw [refSeqJoin_splitLines_cons d i ch (c2 :: m2) hn]
      cases hj : refSeqJoin d i (splitLines (c2 :: m2)) with
      | nil =>
        rw [hj] at hrec
        exact absurd hrec.symm (by simp)
      | cons x xs =>
        rw [hj] at hrec
        rw [List.getLast?_cons_cons, hrec]

/-- The reference run ends with a newline exactly when the content does. -/
theorem getLast?_refSeqRun (d : List Char) (c : List Char) :
    (refSeqRun d c).getLast? = some '\n' ↔ c.getLast? = some '\n' := by
  by_cases hc : c = []
  · simp [refSeqRun, hc]
  · by_cases he : c.getLast? = some '\n'
    · simp [refSeqRun, hc, he]
    · have h := getLast?_refSeqJoin d c 0 hc he
      simp [refSeqRun, hc, he, h]

/-- With no newline among the delimiters, the reference run has no two newlines
at its end. -/
theorem refSeqRun_no_double_newline (d : List Char) (hd : '\n' ∉ d) (c : List Char) :
    ¬ (['\n', '\n'] <:+ refSeqRun d c) := by
  have hj : '\n' ∉ refSeqJoin d 0 (splitLines c) :=
    not_newline_mem_refSeqJoin d hd _ 0 (not_newline_mem_splitLines c)
  rintro ⟨t, ht⟩
  by_cases hc : c = []
  · simp [refSeqRun, hc] at ht
  · by_cases he : c.getLast? = some '\n'
    · simp only [refSeqRun, hc, he, if_true, if_false] at ht
      have h2 : (t ++ ['\n']) ++ ['\n'] = refSeqJoin d 0 (splitLines c) ++ ['\n'] := by
        rw [← ht]; simp
      have h3 := List.append_cancel_right h2
      exact hj (by rw [← h3]; simp)
    · simp only [refSeqRun, hc, he, if_false, List.append_nil] at ht
      exact hj (by rw [← ht]; simp)

/-! ## The loop over the streams of `sequential` -/

theorem seqLoop_append (d : List Char) (n : Nat) : ∀ (s1 s2 : List LIST) (f : Int),
    seqLoop d n (s1 ++ s2) f
      = match seqLoop d n s1 f with
        | .stop s => .stop s
        | .ok (o1, f1) =>
          match seqLoop d n s2 f1 with
          | .stop s => .stop s
          | .ok (o2, f2) => .ok (o1 ++ o2, f2)
  | [], s2, f => by
    simp only [List.nil_append, seqLoop]
    cases seqLoop d n s2 f with
    | stop s => rfl
    | ok r => simp
  | lp :: s1, s2, f => by
    by_cases he : lp.err ≠ 0
    · simp only [List.cons_append, seqLoop, he, if_true, not_false_eq_true, ne_eq]
      exact seqLoop_append d n s1 s2 lp.err
    · simp only [List.cons_append, seqLoop, he, if_false]
      cases seqRun d n lp with
      | stop s => rfl
      | ok w =>
        simp only [List.append_eq, seqLoop_append d n s1 s2 f]
        cases h1 : seqLoop d n s1 f with
        | stop s => rfl
        | ok r1 =>
          obtain ⟨o1, f1⟩ := r1
          cases h2 : seqLoop d n s2 f1 with
          | stop s => simp only [h2]
          | ok r2 =>
            obtain ⟨o2, f2⟩ := r2
            simp only [h2, List.append_assoc]

/-- The flag `failed` after the loop: set when it was set before or some stream
carries an open error. -/
theorem seqLoop_failed (d : List Char) (n : Nat) : ∀ (lh : List LIST) (f f' : Int)
    (o : List Char), seqLoop d n lh f = .ok (o, f') →
    (f' ≠ 0 ↔ f ≠ 0 ∨ ∃ lp ∈ lh, lp.err ≠ 0)
  | [], f, f', o, h => by
    simp only [seqLoop, Outcome.ok.injEq, Prod.mk.injEq] at h
    simp [h.2]
  | lp :: lh, f, f', o, h => by
    by_cases he : lp.err ≠ 0
    · simp only [seqLoop, he, if_true, not_false_eq_true, ne_eq] at h
      have hrec := seqLoop_failed d n lh lp.err f' o h
      constructor
      · intro _
        exact Or.inr ⟨lp, List.mem_cons_self _ _, he⟩
      · intro _
        exact hrec.mpr (Or.inl he)
    · simp only [seqLoop, he, if_false] at h
      cases hr : seqRun d n lp with
      | stop s => simp [hr] at h
      | ok w =>
        cases hl : seqLoop d n lh f with
        | stop s => simp [hr, hl] at h
        | ok r =>
          obtain ⟨ws, g⟩ := r
          simp only [hr, hl, Outcome.ok.injEq, Prod.mk.injEq] at h
          have hrec := seqLoop_failed d n lh f g ws hl
          rw [← h.2, hrec]
          have he0 : lp.err = 0 := by simpa using he
          simp [he0]

/-- The text the loop writes does not depend on the flag `failed` it starts
from. -/
theorem seqLoop_out (d : List Char) (n : Nat) : ∀ (lh : List LIST) (f f' : Int)
    (o : List Char), seqLoop d n lh f = .ok (o, f') →
    ∀ (g : Int), ∃ g', seqLoop d n lh g = .ok (o, g')
  | [], f, f', o, h, g => by
    simp only [seqLoop, Outcome.ok.injEq, Prod.mk.injEq] at h
    exact ⟨g, by simp [seqLoop, h.1]⟩
  | lp :: lh, f, f', o, h, g => by
    by_cases he : lp.err ≠ 0
    · simp only [seqLoop, he, if_true, not_false_eq_true, ne_eq] at h
      exact ⟨f', by simp only [seqLoop, he, if_true, not_false_eq_true, ne_eq, h]⟩
    · simp only [seqLoop, he, if_false] at h
      cases hr : seqRun d n lp with
      | stop s => simp [hr] at h
      | ok w =>
        cases hl : seqLoop d n lh f with
        | stop s => simp [hr, hl] at h
        | ok r =>
          obtain ⟨ws, g0⟩ := r
          simp only [hr, hl, Outcome.ok.injEq, Prod.mk.injEq] at h
          obtain ⟨g', hg'⟩ := seqLoop_out d n lh f g0 ws hl g
          exact ⟨g', by simp only [seqLoop, he, if_false, hr, hg', h.1]⟩

/-- The loop returns on every list whose streams either carry an open error or
are open. -/
theorem seqLoop_total (d : List Char) (hd : d ≠ []) : ∀ (lh : List LIST) (f : Int),
    (∀ lp ∈ lh, lp.err = 0 → lp.fp ≠ none) →
    ∃ o f', seqLoop d d.length lh f = .ok (o, f')
  | [], f, _ => ⟨[], f, rfl⟩
  | lp :: lh, f, h => by
    have hrest : ∀ x ∈ lh, x.err = 0 → x.fp ≠ none :=
      fun x hx => h x (List.mem_cons_of_mem _ hx)
    by_cases he : lp.err ≠ 0
    · obtain ⟨o, f', hrec⟩ := seqLoop_total d hd lh lp.err hrest
      exact ⟨o, f', by simp only [seqLoop, he, if_true, not_false_eq_true, ne_eq, hrec]⟩
    · have he0 : lp.err = 0 := by simpa using he
      have hfp := h lp (List.mem_cons_self _ _) he0
      obtain ⟨o, f', hrec⟩ := seqLoop_total d hd lh f hrest
      obtain ⟨fp, cnt, err⟩ := lp
      cases fp with
      | none => exact absurd rfl hfp
      | some c =>
        exact ⟨refSeqRun d c ++ o, f', by
          simp only [seqLoop, he, if_false, seqRun_eq d hd c cnt err, hrec]⟩


/-! ## Sequential merge: the claims -/

/-- C2: for every non-empty delimiter sequence `d` and every open stream with
content `c`, the run `sequential()` writes for the stream is the reference run:
nothing when `c` is empty, and otherwise the lines of `c` joined by `sep(0),
sep(1), ...`, followed by one newline exactly when `c` ends with a newline,
where `sep(i)` is `d[i mod n]` when that is not null; the return value is 0. -/
theorem sequential_eq_reference (d : List Char) (c : List Char) (cnt : Nat) (hd : d ≠ []) :
    seqRun d d.length { fp := some c, cnt := cnt, err := 0 } = .ok (refSeqRun d c)
      ∧ sequential d d.length [{ fp := some c, cnt := cnt, err := 0 }]
          = .ok (refSeqRun d c, 0) := by
  have h := seqRun_eq d hd c cnt 0
  exact ⟨h, by simp [sequential, seqLoop, h]⟩

/-- C2, the scenario of the specification: file `x y`, delimiter `-`. -/
theorem sequential_eq_reference_witness :
    sequential ['-'] 1 [{ fp := some "x\ny\n".toList, cnt := 0, err := 0 }]
      = .ok ("x-y\n".toList, 0) :=
  (sequential_eq_reference ['-'] "x\ny\n".toList 0 (by decide)).2

/-- C4 as stated fails: the run for the content `x` does not end with a
newline, and the run for the content `a`, newline, newline under the delimiter
newline ends with two. -/
theorem seqRun_newline_counterexample :
    (∃ out, seqRun ['-'] 1 { fp := some "x".toList, cnt := 0, err := 0 } = .ok out
        ∧ out.getLast? ≠ some '\n')
      ∧ (∃ out, seqRun ['\n'] 1 { fp := some "a\n\n".toList, cnt := 0, err := 0 } = .ok out
        ∧ ['\n', '\n'] <:+ out) :=
  ⟨⟨"x".toList, by decide, by decide⟩, ⟨"a\n\n".toList, by decide, ⟨['a'], by decide⟩⟩⟩

/-- C4, amended: for every non-empty delimiter sequence and every open stream,
the run `sequential()` writes for the stream ends with a newline exactly when
the content of the stream does, and it does not end with two newlines when no
delimiter is the newline. -/
theorem seqRun_final_newline (d : List Char) (c : List Char) (cnt : Nat) (hd : d ≠ []) :
    ∃ out, seqRun d d.length { fp := some c, cnt := cnt, err := 0 } = .ok out
      ∧ (out.getLast? = some '\n' ↔ c.getLast? = some '\n')
      ∧ ('\n' ∉ d → ¬ (['\n', '\n'] <:+ out)) :=
  ⟨refSeqRun d c, seqRun_eq d hd c cnt 0, getLast?_refSeqRun d c,
    fun hn => refSeqRun_no_double_newline d hn c⟩

/-- C4, amended, at the content `x`, newline, `y`, newline and the delimiter `-`. -/
theorem seqRun_final_newline_witness :
    ∃ out, seqRun ['-'] 1 { fp := some "x\ny\n".toList, cnt := 0, err := 0 } = .ok out
      ∧ (out.getLast? = some '\n' ↔ "x\ny\n".toList.getLast? = some '\n')
      ∧ ('\n' ∉ ['-'] → ¬ (['\n', '\n'] <:+ out)) :=
  seqRun_final_newline ['-'] "x\ny\n".toList 0 (by decide)

/-- Lists whose entries each own their stream: when `sequential()` returns on
the stream lists `s1` and `s2`, it returns on `s1 ++ s2`, its output there is the output on `s1` followed by the
output on `s2`, and its status is failure exactly when one of the two statuses
is. -/
theorem sequential_append (d : List Char) (n : Nat) (s1 s2 : List LIST)
    (o1 o2 : List Char) (r1 r2 : Nat)
    (h1 : sequential d n s1 = .ok (o1, r1)) (h2 : sequential d n s2 = .ok (o2, r2)) :
    sequential d n (s1 ++ s2) = .ok (o1 ++ o2, if r1 ≠ 0 ∨ r2 ≠ 0 then 1 else 0) := by
  rw [sequential] at h1 h2
  cases hl1 : seqLoop d n s1 0 with
  | stop s => simp [hl1] at h1
  | ok p1 =>
    obtain ⟨w1, f1⟩ := p1
    cases hl2 : seqLoop d n s2 0 with
    | stop s => simp [hl2] at h2
    | ok p2 =>
      obtain ⟨w2, f2⟩ := p2
      simp only [hl1, Outcome.ok.injEq, Prod.mk.injEq] at h1
      simp only [hl2, Outcome.ok.injEq, Prod.mk.injEq] at h2
      obtain ⟨g, hg⟩ := seqLoop_out d n s2 0 f2 w2 hl2 f1
      have hf2 := seqLoop_failed d n s2 0 f2 w2 hl2
      have hfg := seqLoop_failed d n s2 f1 g w2 hg
      have hr1 : r1 ≠ 0 ↔ f1 ≠ 0 := by
        rw [← h1.2]; by_cases h : f1 = 0 <;> simp [h]
      have hr2 : r2 ≠ 0 ↔ f2 ≠ 0 := by
        rw [← h2.2]; by_cases h : f2 = 0 <;> simp [h]
      have hgg : g ≠ 0 ↔ (r1 ≠ 0 ∨ r2 ≠ 0) := by
        rw [hfg, hr1, hr2, hf2]; simp
      rw [sequential, seqLoop_append, hl1]
      simp only [hg, h1.1, h2.1]
      by_cases hz : g = 0
      · have : ¬ (r1 ≠ 0 ∨ r2 ≠ 0) := fun h => (hgg.mpr h) hz
        simp [hz, this]
      · have : r1 ≠ 0 ∨ r2 ≠ 0 := hgg.mp hz
        simp [hz, this]

/-- A list of one private stream followed by a list of a stream that failed to
open and a private stream. -/
theorem sequential_append_witness :
    sequential ['-'] 1
        ([{ fp := some "x\ny\n".toList, cnt := 0, err := 0 }]
          ++ [{ fp := none, cnt := 1, err := 2 }, { fp := some "z".toList, cnt := 2, err := 0 }])
      = .ok ("x-y\n".toList ++ "z".toList, if (0 : Nat) ≠ 0 ∨ (1 : Nat) ≠ 0 then 1 else 0) :=
  sequential_append ['-'] 1 [{ fp := some "x\ny\n".toList, cnt := 0, err := 0 }]
    [{ fp := none, cnt := 1, err := 2 }, { fp := some "z".toList, cnt := 2, err := 0 }]
    "x-y\n".toList "z".toList 0 1 (by decide) (by decide)

/-- C10: on every stream list whose streams either carry an open error or are
open, `sequential()` returns, with status 1 when some stream of the list carries
an open error and status 0 when none does. -/
theorem sequential_status (d : List Char) (lh : List LIST) (hd : d ≠ [])
    (hwf : ∀ lp ∈ lh, lp.err = 0 → lp.fp ≠ none) :
    ∃ out st, sequential d d.length lh = .ok (out, st)
      ∧ (st = 1 ↔ ∃ lp ∈ lh, lp.err ≠ 0)
      ∧ (st = 0 ↔ ∀ lp ∈ lh, lp.err = 0) := by
  obtain ⟨o, f, h⟩ := seqLoop_total d hd lh 0 hwf
  have hf := seqLoop_failed d d.length lh 0 f o h
  simp only [ne_eq, not_true_eq_false, false_or] at hf
  refine ⟨o, if f ≠ 0 then 1 else 0, by simp only [sequential, h], ?_, ?_⟩
  · rw [← hf]
    by_cases hz : f = 0 <;> simp [hz]
  · have hall : (∀ lp ∈ lh, lp.err = 0) ↔ ¬ ∃ lp ∈ lh, ¬ lp.err = 0 := by
      simp
    rw [hall, ← hf]
    by_cases hz : f = 0 <;> simp [hz]

/-- C10 at a list whose first stream failed to open and is followed by two
open streams. -/
theorem sequential_status_witness :
    ∃ out st, sequential ['-'] ['-'].length
          [{ fp := none, cnt := 0, err := 2 }, { fp := some "a\nb\n".toList, cnt := 1, err := 0 },
            { fp := some "c".toList, cnt := 2, err := 0 }] = .ok (out, st)
      ∧ (st = 1 ↔ ∃ lp ∈ [({ fp := none, cnt := 0, err := 2 } : LIST),
            { fp := some "a\nb\n".toList, cnt := 1, err := 0 },
            { fp := some "c".toList, cnt := 2, err := 0 }], lp.err ≠ 0)
      ∧ (st = 0 ↔ ∀ lp ∈ [({ fp := none, cnt := 0, err := 2 } : LIST),
            { fp := some "a\nb\n".toList, cnt := 1, err := 0 },
            { fp := some "c".toList, cnt := 2, err := 0 }], lp.err = 0) :=
  sequential_status ['-'] _ (by decide) (by decide)

/-! ## The delimiter compiler: the claims -/

/-- C5: on a raw specification the reference translation covers, `tr()` returns
the number of translated elements and leaves them, in order, in the first cells
of the buffer; it exits with "no delimiters specified" when there is none. -/
theorem tr_eq_reference (raw ys : List Char) (hnul : NUL ∉ raw)
    (href : refTr raw = some ys) :
    tr (cstr raw)
      = if ys = [] then .stop .noDelimiters
        else .ok (ys ++ (cstr raw).drop ys.length, ys.length) :=
  tr_of_refTr raw ys hnul href

/-- C5, the scenario of the specification: the 7 characters backslash `t`
backslash `n` backslash `0` `x` yield tab, newline, null, `x`, count 4. -/
theorem tr_eq_reference_witness :
    tr (cstr "\\t\\n\\0x".toList) = .ok (['\t', '\n', NUL, 'x'] ++ ['\\', '0', 'x', NUL], 4) :=
  tr_eq_reference "\\t\\n\\0x".toList ['\t', '\n', NUL, 'x'] (by decide) (by decide)

/-- The part of C6 that holds: `tr()` exits with "no delimiters specified"
exactly on the empty specification. -/
theorem tr_noDelimiters_iff (raw : List Char) (hnul : NUL ∉ raw) :
    tr (cstr raw) = .stop .noDelimiters ↔ raw = [] := by
  constructor
  · intro h
    cases href : refTr raw with
    | none =>
      rw [tr_of_dangling raw hnul href] at h
      cases h
    | some ys =>
      rw [tr_of_refTr raw ys hnul href] at h
      by_cases hy : ys = []
      · subst hy
        exact refTr_eq_nil raw href
      · simp [hy] at h
  · rintro rfl
    rfl

/-- The part of C6 and C8 that holds: on a non-empty raw specification the
reference translation covers, `tr()` returns a count that is at least 1 and at
most the length of the specification. -/
theorem tr_count_bounds (raw ys : List Char) (hnul : NUL ∉ raw) (href : refTr raw = some ys)
    (hne : raw ≠ []) :
    ∃ mem cnt, tr (cstr raw) = .ok (mem, cnt) ∧ cnt = ys.length ∧ 1 ≤ cnt
      ∧ cnt ≤ raw.length := by
  have hy : ys ≠ [] := fun e => hne (refTr_eq_nil raw (e ▸ href))
  refine ⟨_, _, by rw [tr_of_refTr raw ys hnul href, if_neg hy], rfl, ?_,
    refTr_length_le raw ys href⟩
  exact List.length_pos.mpr hy

/-- C6 at the specification of one backslash: `tr()` does not return a count;
after storing the terminator as a delimiter it reads the cell past the
terminator. -/
theorem tr_lone_backslash : tr (cstr ['\\']) = .stop .badAccess := by
  decide

/-- C7: on every non-empty raw specification without a backslash, `tr()`
returns the length of the specification and leaves the buffer as it was. -/
theorem tr_literal (raw : List Char) (hne : raw ≠ []) (hb : '\\' ∉ raw) (hnul : NUL ∉ raw) :
    tr (cstr raw) = .ok (cstr raw, raw.length) := by
  rw [tr_of_refTr raw raw hnul (refTr_literal raw hb), if_neg hne]
  simp [cstr]

/-- C7 at the specification `,;`. -/
theorem tr_literal_witness : tr (cstr [',', ';']) = .ok (cstr [',', ';'], 2) :=
  tr_literal [',', ';'] (by decide) (by decide) (by decide)

/-- C8 at the specification `a`, `b`, backslash: the scan does not stop at the
terminator of the 4-cell buffer, it goes on to read the cell of index 4. -/
theorem tr_trailing_backslash : tr (cstr ['a', 'b', '\\']) = .stop .badAccess := by
  decide

/-! ## Sequential merge: streams that failed to open, special delimiters -/

/-- The loop of `sequential` on the list without the streams that carry an open
error writes what it writes on the whole list, and leaves `failed` as it was. -/
theorem seqLoop_filter (d : List Char) (n : Nat) : ∀ (lh : List LIST) (f g : Int),
    seqLoop d n (lh.filter (fun lp => decide (lp.err = 0))) g
      = match seqLoop d n lh f with
        | .stop s => .stop s
        | .ok (o, _) => .ok (o, g)
  | [], f, g => by simp [seqLoop]
  | lp :: lh, f, g => by
    by_cases he : lp.err = 0
    · have hrec := seqLoop_filter d n lh f g
      simp only [List.filter_cons, he, decide_True, if_true, seqLoop, ne_eq, not_true_eq_false,
        if_false, hrec]
      cases seqRun d n lp with
      | stop s => rfl
      | ok w =>
        cases seqLoop d n lh f with
        | stop s => rfl
        | ok r => rfl
    · have hrec := seqLoop_filter d n lh lp.err g
      simp only [List.filter_cons, he, decide_False, Bool.false_eq_true, if_false, seqLoop, ne_eq,
        not_false_eq_true, if_true, hrec]

theorem refSeqSep_all_null (d : List Char) (hall : ∀ x ∈ d, x = NUL) (i : Nat) :
    refSeqSep d i = [] := by
  rw [refSeqSep]
  cases hg : d[i % d.length]? with
  | none => rfl
  | some ch => simp [hall ch (List.getElem?_mem hg)]

theorem refSeqJoin_all_null (d : List Char) (hall : ∀ x ∈ d, x = NUL) :
    ∀ (c : List Char) (i : Nat),
      refSeqJoin d i (splitLines c) = c.filter (fun ch => decide (ch ≠ '\n'))
  | [], _ => by simp [splitLines, refSeqJoin]
  | [ch], i => by
    by_cases h : ch = '\n'
    · subst h
      simp [splitLines, refSeqJoin]
    · rw [refSeqJoin_splitLines_cons d i ch [] h]
      simp [splitLines, refSeqJoin, h]
  | ch :: c2 :: m2, i => by
    by_cases h : ch = '\n'
    · subst h
      rw [refSeqJoin_splitLines_newline, refSeqSep_all_null d hall,
        refSeqJoin_all_null d hall (c2 :: m2) (i + 1)]
      simp
    · rw [refSeqJoin_splitLines_cons d i ch (c2 :: m2) h,
        refSeqJoin_all_null d hall (c2 :: m2) i]
      simp [h]

theorem refSeqSep_newline (i : Nat) : refSeqSep ['\n'] i = ['\n'] := by
  simp [refSeqSep, Nat.mod_one, NUL]

theorem refSeqRun_newline : ∀ (c : List Char) (i : Nat), c ≠ [] →
    refSeqJoin ['\n'] i (splitLines c) ++ (if c.getLast? = some '\n' then ['\n'] else []) = c
  | [], _, h => absurd rfl h
  | [ch], i, _ => by
    by_cases h : ch = '\n'
    · subst h
      simp [splitLines, refSeqJoin]
    · rw [refSeqJoin_splitLines_cons ['\n'] i ch [] h]
      simp [splitLines, refSeqJoin, h]
  | ch :: c2 :: m2, i, _ => by
    rw [List.getLast?_cons_cons]
    by_cases h : ch = '\n'
    · subst h
      rw [refSeqJoin_splitLines_newline, refSeqSep_newline, List.append_assoc,
        refSeqRun_newline (c2 :: m2) (i + 1) (List.cons_ne_nil _ _)]
      rfl
    · rw [refSeqJoin_splitLines_cons ['\n'] i ch (c2 :: m2) h, List.cons_append,
        refSeqRun_newline (c2 :: m2) i (List.cons_ne_nil _ _)]


/-- What `sequential()` does on the list without the streams that carry an open
error: the output of the whole list, status 0. -/
theorem sequential_filter (d : List Char) (n : Nat) (lh : List LIST) :
    sequential d n (lh.filter (fun lp => decide (lp.err = 0)))
      = match sequential d n lh with
        | .stop s => .stop s
        | .ok (o, _) => .ok (o, 0) := by
  rw [sequential, sequential, seqLoop_filter d n lh 0 0]
  cases seqLoop d n lh 0 with
  | stop s => rfl
  | ok r => rfl

/-- C11: on every stream list whose streams either carry an open error or are
open, `sequential()` returns, and its output is its output on the list from
which every stream that carries an open error is deleted. -/
theorem sequential_skips_failed (d : List Char) (lh : List LIST) (hd : d ≠ [])
    (hwf : ∀ lp ∈ lh, lp.err = 0 → lp.fp ≠ none) :
    ∃ out st, sequential d d.length lh = .ok (out, st)
      ∧ sequential d d.length (lh.filter (fun lp => decide (lp.err = 0))) = .ok (out, 0) := by
  obtain ⟨o, f, h⟩ := seqLoop_total d hd lh 0 hwf
  have hs : sequential d d.length lh = .ok (o, if f ≠ 0 then 1 else 0) := by
    simp only [sequential, h]
  exact ⟨o, _, hs, by rw [sequential_filter, hs]⟩

/-- C11 at a list of four streams, the first and the third of which failed to
open. -/
theorem sequential_skips_failed_witness :
    ∃ out st, sequential ['-'] ['-'].length
          [{ fp := none, cnt := 0, err := 2 }, { fp := some "a\nb\n".toList, cnt := 1, err := 0 },
            { fp := none, cnt := 2, err := 13 }, { fp := some "c".toList, cnt := 3, err := 0 }]
          = .ok (out, st)
      ∧ sequential ['-'] ['-'].length
          (([{ fp := none, cnt := 0, err := 2 }, { fp := some "a\nb\n".toList, cnt := 1, err := 0 },
            { fp := none, cnt := 2, err := 13 }, { fp := some "c".toList, cnt := 3, err := 0 }]
              : List LIST).filter (fun lp => decide (lp.err = 0)))
          = .ok (out, 0) :=
  sequential_skips_failed ['-'] _ (by decide) (by decide)

/-- C12: under a delimiter sequence all of whose entries are null, the run
`sequential()` writes for an open stream with content `c` is `c` without its
newlines, followed by one newline exactly when `c` ends with a newline; it
holds as many null characters as `c`. -/
theorem seqRun_null_delimiters (d : List Char) (c : List Char) (cnt : Nat) (hd : d ≠ [])
    (hall : ∀ x ∈ d, x = NUL) :
    ∃ out, seqRun d d.length { fp := some c, cnt := cnt, err := 0 } = .ok out
      ∧ out = c.filter (fun ch => decide (ch ≠ '\n'))
          ++ (if c.getLast? = some '\n' then ['\n'] else [])
      ∧ out.count NUL = c.count NUL := by
  have hrun : refSeqRun d c = c.filter (fun ch => decide (ch ≠ '\n'))
      ++ (if c.getLast? = some '\n' then ['\n'] else []) := by
    by_cases hc : c = []
    · simp [refSeqRun, hc]
    · simp only [refSeqRun, hc, if_false, refSeqJoin_all_null d hall c 0]
  refine ⟨refSeqRun d c, seqRun_eq d hd c cnt 0, hrun, ?_⟩
  have hne : NUL ≠ '\n' := by decide
  rw [hrun, List.count_append, List.count_filter (by simpa using hne)]
  by_cases he : c.getLast? = some '\n'
  · simp [he, List.count_singleton, hne]
  · simp [he]

/-- C12 at the delimiters null, null and a content of four lines, one of them
empty. -/
theorem seqRun_null_delimiters_witness :
    ∃ out, seqRun [NUL, NUL] [NUL, NUL].length
          { fp := some "a\nb\n\nc\n".toList, cnt := 0, err := 0 } = .ok out
      ∧ out = "a\nb\n\nc\n".toList.filter (fun ch => decide (ch ≠ '\n'))
          ++ (if "a\nb\n\nc\n".toList.getLast? = some '\n' then ['\n'] else [])
      ∧ out.count NUL = "a\nb\n\nc\n".toList.count NUL :=
  seqRun_null_delimiters [NUL, NUL] "a\nb\n\nc\n".toList 0 (by decide) (by decide)

/-- C20: with the one delimiter newline, the run `sequential()` writes for an
open stream is the content of the stream, whatever the content, and
`sequential()` on that stream alone returns it with status 0. -/
theorem seqRun_newline_identity (c : List Char) (cnt : Nat) :
    seqRun ['\n'] 1 { fp := some c, cnt := cnt, err := 0 } = .ok c
      ∧ sequential ['\n'] 1 [{ fp := some c, cnt := cnt, err := 0 }] = .ok (c, 0) := by
  have hrun : refSeqRun ['\n'] c = c := by
    by_cases hc : c = []
    · simp [refSeqRun, hc]
    · simp only [refSeqRun, hc, if_false]
      exact refSeqRun_newline c 0 hc
  have h := seqRun_eq ['\n'] (by decide) c cnt 0
  rw [hrun] at h
  have h1 : seqRun ['\n'] 1 { fp := some c, cnt := cnt, err := 0 } = .ok c := h
  exact ⟨h1, by simp [sequential, seqLoop, h1]⟩


/-! ## Parallel merge: the delimiters before the first column of a row -/

theorem refSep_succ (d : List Char) (i : Nat) : refSep d (i + 1) = cycleDelim d i := by
  simp [refSep, cycleDelim]

theorem leadText_eq_range (d : List Char) : ∀ (k c : Nat),
    leadText d k c = (List.range k).flatMap (fun i => cycleDelim d (c + i))
  | 0, _ => rfl
  | k + 1, c => by
    rw [leadText_succ, leadText_eq_range d k c, List.range_succ, List.flatMap_append,
      refSep_succ]
    simp

theorem leadText_zero_eq (d : List Char) (k : Nat) :
    leadText d k 0 = (List.range k).flatMap (cycleDelim d) := by
  rw [leadText_eq_range]
  simp

/-- C13 as stated fails: with delimiters `,` and `;`, a first stream at end of
file and a line `x` read from the stream of index 1, the text written before
the line is the one delimiter of cycle position 0, not the two of positions 0
and 1. -/
theorem sweep_leading_counterexample :
    ∃ r, sweep [',', ';'] 2 (registry ["".toList, "x\n".toList]) 2 false = .ok r
      ∧ r.out = (List.range 1).flatMap (cycleDelim [',', ';']) ++ "x".toList
      ∧ r.out ≠ (List.range (1 + 1)).flatMap (cycleDelim [',', ';']) ++ "x".toList :=
  ⟨_, rfl, by decide, by decide⟩

/-- C13, amended: when `parallel()` reads a line from a stream with index `k`
and output has not started in the round, it writes, before the content of the
line, the delimiters at cycle positions `i mod delimcnt` for the `k` indices
`i` from 0 up to `k - 1`, null ones skipped; the rest of the traversal runs
with output started. -/
theorem sweep_leading_delimiters (d : List Char) (lp : LIST) (ich : Char)
    (more : List Char) (rest : List LIST) (opencnt : Nat) (r : Sweep) (hd : d ≠ [])
    (hfp : lp.fp = some (ich :: more))
    (hrest : sweep d d.length rest opencnt true = .ok r) :
    sweep d d.length (lp :: rest) opencnt false
      = .ok { lh := { lp with fp := advFp (some (ich :: more)) } :: r.lh,
              opencnt := r.opencnt, output := r.output,
              out := (List.range lp.cnt).flatMap (cycleDelim d)
                ++ curLine (some (ich :: more)) ++ r.out } := by
  rw [sweep, hfp]
  simp only [Bool.not_false, if_true, leadLoop_eq d hd, leadText_zero_eq, hrest]
  by_cases hn : ich = '\n' <;> simp [hn, advFp, curLine]

/-- C13, amended, at a line `x` read from the stream of index 2, the last of
the list: the two delimiters `,` and `;` come before the line. -/
theorem sweep_leading_delimiters_witness :
    sweep [',', ';'] 2 [{ fp := some "x\n".toList, cnt := 2, err := 0 }] 3 false
      = .ok { lh := [{ fp := some [], cnt := 2, err := 0 }], opencnt := 3, output := true,
              out := ",;x".toList } :=
  sweep_leading_delimiters [',', ';'] { fp := some "x\n".toList, cnt := 2, err := 0 } 'x'
    ['\n'] [] 3 { lh := [], opencnt := 3, output := true, out := [] } (by decide) rfl rfl


theorem refJoinFrom_replicate (d : List Char) (cols : List (List Char)) : ∀ (m c : Nat),
    refJoinFrom d (c + 1) (List.replicate m [] ++ cols)
      = leadText d m c ++ refJoinFrom d (c + 1 + m) cols
  | 0, c => by simp [leadText]
  | m + 1, c => by
    have harg : c + 1 + 1 + m = c + 1 + (m + 1) := by omega
    rw [List.replicate_succ, List.cons_append, refJoinFrom, refJoinFrom_replicate d cols m (c + 1),
      leadText, harg]
    simp

theorem refRowBody_replicate (d : List Char) (l : List Char) (tail : List (List Char)) :
    ∀ (k : Nat), refRowBody d (List.replicate k [] ++ l :: tail)
      = leadText d k 0 ++ l ++ refJoinFrom d (k + 1) tail
  | 0 => by simp [refRowBody, leadText]
  | k + 1 => by
    rw [List.replicate_succ, List.cons_append, refRowBody, List.nil_append]
    have h := refJoinFrom_replicate d (l :: tail) k 0
    rw [Nat.zero_add] at h
    rw [h, refJoinFrom, leadText_succ]
    simp [Nat.add_comm 1 k]

theorem map_curLine_of_no_line : ∀ (pre : List (Option (List Char))),
    (∀ fp ∈ pre, hasLine fp = false) → pre.map curLine = List.replicate pre.length []
  | [], _ => rfl
  | fp :: pre, h => by
    have h0 := h fp (List.mem_cons_self _ _)
    have hrec := map_curLine_of_no_line pre (fun x hx => h x (List.mem_cons_of_mem _ hx))
    rw [List.map_cons, hrec, List.length_cons, List.replicate_succ]
    match fp, h0 with
    | none, _ => rfl
    | some [], _ => rfl
    | some (_ :: _), h0 => simp [hasLine] at h0

/-- C14 as stated fails: with a first stream at end of file and the line `x`
in the stream of index 1, the row starts with the delimiter `,`, written before
the content of stream 1. -/
theorem parallel_placeholder_counterexample :
    (∃ r, sweep [','] 1 (registry ["".toList, "x\n".toList]) 2 false = .ok r
        ∧ r.out = ',' :: "x".toList)
      ∧ parallel 2 [','] 1 2 (registry ["".toList, "x\n".toList]) = .ok (",x\n".toList, 0) :=
  ⟨⟨_, rfl, by decide⟩, by decide⟩

/-- C14, amended: in a round of `parallel()` in which the streams `0 .. k-1`
have no line left and stream `k` is the first to produce one, the text of the
row starts with the `k` delimiters at cycle positions `0 .. k-1`, null ones
skipped, followed by the content of stream `k`: the delimiters hold the places
of the absent columns that precede the first real column. -/
theorem sweep_placeholders (d : List Char) (pre : List (Option (List Char))) (ich : Char)
    (more : List Char) (rest : List (Option (List Char))) (opencnt : Nat) (hd : d ≠ [])
    (hpre : ∀ fp ∈ pre, hasLine fp = false)
    (hopen : (pre ++ some (ich :: more) :: rest).countP atEof < opencnt) :
    ∃ r, sweep d d.length (attach 0 (pre ++ some (ich :: more) :: rest)) opencnt false = .ok r
      ∧ r.out = (List.range pre.length).flatMap (cycleDelim d)
          ++ curLine (some (ich :: more))
          ++ refJoinFrom d (pre.length + 1) (rest.map curLine) := by
  have hany : (pre ++ some (ich :: more) :: rest).any hasLine = true := by
    simp [hasLine]
  refine ⟨_, sweep_round d hd _ opencnt hopen, ?_⟩
  simp only [hany, if_true, List.map_append, List.map_cons, map_curLine_of_no_line pre hpre,
    refRowBody_replicate, leadText_zero_eq]

/-- C14, amended, at three streams, the first marked exhausted, the second at
end of file, the third with the line `x`: the row is `,;x` before its newline. -/
theorem sweep_placeholders_witness :
    ∃ r, sweep [',', ';'] [',', ';'].length
          (attach 0 ([none, some []] ++ some ('x' :: ['\n']) :: [])) 2 false = .ok r
      ∧ r.out = (List.range [none, some ([] : List Char)].length).flatMap (cycleDelim [',', ';'])
          ++ curLine (some ('x' :: ['\n']))
          ++ refJoinFrom [',', ';'] ([none, some ([] : List Char)].length + 1)
              (([] : List (Option (List Char))).map curLine) :=
  sweep_placeholders [',', ';'] [none, some []] 'x' ['\n'] [] 2 (by decide) (by decide)
    (by decide)


/-! ## Parallel merge: termination -/

theorem flatMap_getD_range : ∀ (l : List (List Char)),
    (List.range l.length).flatMap (fun r => l.getD r [] ++ ['\n'])
      = l.flatMap (fun x => x ++ ['\n'])
  | [] => rfl
  | x :: l => by
    have hrec := flatMap_getD_range l
    rw [List.length_cons, List.range_succ_eq_map, List.flatMap_cons, List.flatMap_cons,
      ← hrec, List.flatMap_def, List.flatMap_def, List.map_map]
    rfl

theorem flatMap_splitLines_cons (ch c2 : Char) (m2 : List Char) (h : ch ≠ '\n') :
    (splitLines (ch :: c2 :: m2)).flatMap (fun x => x ++ ['\n'])
      = ch :: (splitLines (c2 :: m2)).flatMap (fun x => x ++ ['\n']) := by
  have hne := splitLines_cons_ne_nil c2 m2
  rw [splitLines, if_neg h]
  cases hs : splitLines (c2 :: m2) with
  | nil => exact absurd hs hne
  | cons l ls => simp

/-- The lines of a content, each followed by a newline, make the content
itself, with a newline added when it is not empty and does not end with one. -/
theorem flatMap_splitLines : ∀ (c : List Char),
    (splitLines c).flatMap (fun x => x ++ ['\n'])
      = if c = [] ∨ c.getLast? = some '\n' then c else c ++ ['\n']
  | [] => by simp [splitLines]
  | [ch] => by
    by_cases h : ch = '\n'
    · subst h
      simp [splitLines]
    · simp [splitLines, h]
  | ch :: c2 :: m2 => by
    have hrec := flatMap_splitLines (c2 :: m2)
    simp only [List.cons_ne_nil, false_or] at hrec
    simp only [List.cons_ne_nil, false_or, List.getLast?_cons_cons]
    by_cases h : ch = '\n'
    · subst h
      rw [splitLines, if_pos rfl, List.flatMap_cons, hrec]
      by_cases he : (c2 :: m2).getLast? = some '\n' <;> simp [he]
    · rw [flatMap_splitLines_cons ch c2 m2 h, hrec]
      by_cases he : (c2 :: m2).getLast? = some '\n' <;> simp [he]

theorem refParallel_single (d : List Char) (c : List Char) :
    refParallel d [c] = (splitLines c).flatMap (fun x => x ++ ['\n']) := by
  have hmax : maxLines [c] = (splitLines c).length := by
    simp [maxLines]
  have hrow : refRow d [c] = fun r => (splitLines c).getD r [] ++ ['\n'] := by
    funext r
    simp [refRow, refRowBody, refJoinFrom]
  rw [refParallel, hmax, ← flatMap_getD_range, hrow]

/-- C19: for every non-empty delimiter sequence and a single open stream with
content `c`, `parallel()` returns 0 with output `c` when `c` is empty or ends
with a newline, and `c` followed by one newline otherwise. -/
theorem parallel_single_stream (d : List Char) (c : List Char) (fuel : Nat) (hd : d ≠ [])
    (hfuel : (splitLines c).length < fuel) :
    parallel fuel d d.length 1 (registry [c])
      = .ok (if c = [] ∨ c.getLast? = some '\n' then c else c ++ ['\n'], 0) := by
  have hmax : maxLines [c] = (splitLines c).length := by
    simp [maxLines]
  have h := parallelRounds_registry d hd [c] fuel (by rw [hmax]; exact hfuel)
  have hflat : ((List.range (maxLines [c])).map (refRow d [c]) ++ [[]]).flatten
      = refParallel d [c] := by
    simp [refParallel, List.flatMap_def]
  simp only [List.length_singleton, List.cons_ne_nil, if_false] at h
  rw [parallel, h]
  simp only [hflat, refParallel_single, flatMap_splitLines]

/-- C19 at a content that ends with a line without newline, and at one that
ends with a newline, an empty line inside. -/
theorem parallel_single_stream_witness :
    parallel 3 [','] 1 1 (registry ["a\nb".toList]) = .ok ("a\nb\n".toList, 0)
      ∧ parallel 4 [','] 1 1 (registry ["a\n\nb\n".toList]) = .ok ("a\n\nb\n".toList, 0) :=
  ⟨parallel_single_stream [','] "a\nb".toList 3 (by decide) (by decide),
   parallel_single_stream [','] "a\n\nb\n".toList 4 (by decide) (by decide)⟩

/-! ## Lists that name standard input at most once -/

theorem map_priv_congr : ∀ (lh : List SLIST) (s s' : List Char), dashes lh = 0 →
    lh.map (priv s) = lh.map (priv s')
  | [], _, _, _ => rfl
  | lp :: lh, s, s', h => by
    obtain ⟨fp, cnt, err⟩ := lp
    match fp with
    | none =>
      have h' : dashes lh = 0 := by simpa [dashes] using h
      simp [priv, map_priv_congr lh s s' h']
    | some (.file c) =>
      have h' : dashes lh = 0 := by simpa [dashes] using h
      simp [priv, unreadOf, map_priv_congr lh s s' h']
    | some .stdin => simp [dashes] at h

theorem dashes_cons_none (lh : List SLIST) (cnt : Nat) (err : Int) :
    dashes ({ fp := none, cnt := cnt, err := err } :: lh) = dashes lh := by
  simp [dashes]

theorem dashes_cons_file (lh : List SLIST) (c : List Char) (cnt : Nat) (err : Int) :
    dashes ({ fp := some (.file c), cnt := cnt, err := err } :: lh) = dashes lh := by
  simp [dashes]

theorem dashes_cons_stdin (lh : List SLIST) (cnt : Nat) (err : Int) :
    dashes ({ fp := some .stdin, cnt := cnt, err := err } :: lh) = dashes lh + 1 := by
  simp [dashes]

/-- A traversal of a list that names standard input at most once does what the
traversal of the list of private streams does, each entry holding the unread
characters of the stream it points to. -/
theorem sweepS_sim (d : List Char) (n : Nat) :
    ∀ (lh : List SLIST) (stdin : List Char) (opencnt : Nat) (output : Bool), dashes lh ≤ 1 →
      (∀ s, sweep d n (lh.map (priv stdin)) opencnt output = .stop s →
          sweepS d n lh stdin opencnt output = .stop s)
        ∧ (∀ r, sweep d n (lh.map (priv stdin)) opencnt output = .ok r →
          ∃ lh' stdin', sweepS d n lh stdin opencnt output
              = .ok { lh := lh', stdin := stdin', opencnt := r.opencnt, output := r.output,
                      out := r.out }
            ∧ lh'.map (priv stdin') = r.lh ∧ dashes lh' ≤ dashes lh
            ∧ (dashes lh = 0 → stdin' = stdin))
  | [], stdin, opencnt, output, _ => by
    constructor
    · intro s h
      simp [sweep] at h
    · intro r h
      simp only [List.map_nil, sweep, Outcome.ok.injEq] at h
      subst h
      exact ⟨[], stdin, by simp [sweepS], rfl, Nat.le_refl _, fun _ => rfl⟩
  | lp :: rest, stdin, opencnt, output, hd1 => by
    obtain ⟨fp, cnt, err⟩ := lp
    match fp with
    | none =>
      rw [dashes_cons_none] at hd1
      obtain ⟨ihs, iho⟩ := sweepS_sim d n rest stdin opencnt output hd1
      simp only [List.map_cons, priv, Option.map_none', sweep, sweepS]
      cases hw : (if (output && cnt != 0) = true then putDelim d n ((cnt : Int) - 1)
          else Outcome.ok []) with
      | stop s0 =>
        constructor
        · intro s h; simpa using h
        · intro r h; simp at h
      | ok w =>
        cases hr : sweep d n (rest.map (priv stdin)) opencnt output with
        | stop s0 =>
          constructor
          · intro s h
            simp only [Outcome.stop.injEq] at h
            simp [ihs s0 hr, h]
          · intro r h; simp at h
        | ok r0 =>
          obtain ⟨lh', stdin', hS, hmap, hle, hz⟩ := iho r0 hr
          constructor
          · intro s h; simp at h
          · intro r h
            simp only [Outcome.ok.injEq] at h
            subst h
            refine ⟨{ fp := none, cnt := cnt, err := err } :: lh', stdin', by simp [hS], ?_, ?_, ?_⟩
            · simp [priv, hmap]
            · simpa [dashes_cons_none] using hle
            · simpa [dashes_cons_none] using hz
    | some (.file c) =>
      rw [dashes_cons_file] at hd1
      simp only [List.map_cons, priv, Option.map_some', unreadOf, sweep, sweepS]
      match c with
      | [] =>
        by_cases ho : opencnt - 1 = 0
        · simp only [ho, if_true]
          constructor
          · intro s h; simp at h
          · intro r h
            simp only [Outcome.ok.injEq] at h
            subst h
            exact ⟨{ fp := some (.file []), cnt := cnt, err := err } :: rest, stdin, rfl,
              by simp [priv, unreadOf], Nat.le_refl _, fun _ => rfl⟩
        · obtain ⟨ihs, iho⟩ := sweepS_sim d n rest stdin (opencnt - 1) output hd1
          simp only [ho, if_false]
          cases hw : (if (output && cnt != 0) = true then putDelim d n ((cnt : Int) - 1)
              else Outcome.ok []) with
          | stop s0 =>
            constructor
            · intro s h; simpa using h
            · intro r h; simp at h
          | ok w =>
            cases hr : sweep d n (rest.map (priv stdin)) (opencnt - 1) output with
            | stop s0 =>
              constructor
              · intro s h
                simp only [Outcome.stop.injEq] at h
                simp [ihs s0 hr, h]
              · intro r h; simp at h
            | ok r0 =>
              obtain ⟨lh', stdin', hS, hmap, hle, hz⟩ := iho r0 hr
              constructor
              · intro s h; simp at h
              · intro r h
                simp only [Outcome.ok.injEq] at h
                subst h
                refine ⟨{ fp := none, cnt := cnt, err := err } :: lh', stdin', by simp [hS],
                  ?_, ?_, ?_⟩
                · simp [priv, hmap]
                · simpa [dashes_cons_none, dashes_cons_file] using hle
                · simpa [dashes_cons_file] using hz
      | ich :: more =>
        obtain ⟨ihs, iho⟩ := sweepS_sim d n rest stdin opencnt true hd1
        cases hw : (if (!output) = true then leadLoop d n cnt 0
            else putDelim d n ((cnt : Int) - 1)) with
        | stop s0 =>
          constructor
          · intro s h; simpa using h
          · intro r h; simp at h
        | ok w =>
          simp only [afterRead]
          cases hr : sweep d n (rest.map (priv stdin)) opencnt true with
          | stop s0 =>
            constructor
            · intro s h
              simp only [Outcome.stop.injEq] at h
              simp [ihs s0 hr, h]
            · intro r h; simp at h
          | ok r0 =>
            obtain ⟨lh', stdin', hS, hmap, hle, hz⟩ := iho r0 hr
            constructor
            · intro s h; simp at h
            · intro r h
              simp only [Outcome.ok.injEq] at h
              subst h
              refine ⟨{ fp := some (.file (if ich = '\n' then (([] : List Char), more)
                    else copyLine ich more).2), cnt := cnt, err := err } :: lh', stdin',
                by simp [hS], ?_, ?_, ?_⟩
              · simp [priv, unreadOf, hmap]
              · simpa [dashes_cons_file] using hle
              · simpa [dashes_cons_file] using hz
    | some .stdin =>
      rw [dashes_cons_stdin] at hd1
      have hrest : dashes rest = 0 := by omega
      simp only [List.map_cons, priv, Option.map_some', unreadOf, sweep, sweepS]
      match stdin with
      | [] =>
        by_cases ho : opencnt - 1 = 0
        · simp only [ho, if_true]
          constructor
          · intro s h; simp at h
          · intro r h
            simp only [Outcome.ok.injEq] at h
            subst h
            exact ⟨{ fp := some .stdin, cnt := cnt, err := err } :: rest, [], rfl,
              by simp [priv, unreadOf], Nat.le_refl _, fun _ => rfl⟩
        · obtain ⟨ihs, iho⟩ := sweepS_sim d n rest [] (opencnt - 1) output (by omega)
          simp only [ho, if_false]
          cases hw : (if (output && cnt != 0) = true then putDelim d n ((cnt : Int) - 1)
              else Outcome.ok []) with
          | stop s0 =>
            constructor
            · intro s h; simpa using h
            · intro r h; simp at h
          | ok w =>
            cases hr : sweep d n (rest.map (priv [])) (opencnt - 1) output with
            | stop s0 =>
              constructor
              · intro s h
                simp only [Outcome.stop.injEq] at h
                simp [ihs s0 hr, h]
              · intro r h; simp at h
            | ok r0 =>
              obtain ⟨lh', stdin', hS, hmap, hle, hz⟩ := iho r0 hr
              constructor
              · intro s h; simp at h
              · intro r h
                simp only [Outcome.ok.injEq] at h
                subst h
                refine ⟨{ fp := none, cnt := cnt, err := err } :: lh', stdin', by simp [hS],
                  ?_, ?_, ?_⟩
                · simp [priv, hmap]
                · rw [dashes_cons_none, dashes_cons_stdin]; omega
                · intro h0; rw [dashes_cons_stdin] at h0; omega
      | ich :: more =>
        have hcongr := map_priv_congr rest (ich :: more)
          (if ich = '\n' then (([] : List Char), more) else copyLine ich more).2 hrest
        obtain ⟨ihs, iho⟩ := sweepS_sim d n rest
          (if ich = '\n' then (([] : List Char), more) else copyLine ich more).2 opencnt true
          (by omega)
        rw [← hcongr] at ihs iho
        cases hw : (if (!output) = true then leadLoop d n cnt 0
            else putDelim d n ((cnt : Int) - 1)) with
        | stop s0 =>
          constructor
          · intro s h; simpa using h
          · intro r h; simp at h
        | ok w =>
          simp only [afterRead]
          cases hr : sweep d n (rest.map (priv (ich :: more))) opencnt true with
          | stop s0 =>
            constructor
            · intro s h
              simp only [Outcome.stop.injEq] at h
              simp [ihs s0 hr, h]
            · intro r h; simp at h
          | ok r0 =>
            obtain ⟨lh', stdin', hS, hmap, hle, hz⟩ := iho r0 hr
            have hst := hz hrest
            subst hst
            constructor
            · intro s h; simp at h
            · intro r h
              simp only [Outcome.ok.injEq] at h
              subst h
              refine ⟨{ fp := some .stdin, cnt := cnt, err := err } :: lh',
                (if ich = '\n' then (([] : List Char), more) else copyLine ich more).2,
                by simp [hS], ?_, ?_, ?_⟩
              · simp only [List.map_cons, priv, Option.map_some', unreadOf, hmap]
              · rw [dashes_cons_stdin, dashes_cons_stdin]; omega
              · intro h0; rw [dashes_cons_stdin] at h0; omega


/-- The rounds of `parallel` on a list that names standard input at most once
are the rounds on the list of private streams. -/
theorem parallelRoundsS_eq (d : List Char) (n : Nat) :
    ∀ (fuel opencnt : Nat) (lh : List SLIST) (stdin : List Char), dashes lh ≤ 1 →
      parallelRoundsS d n fuel opencnt lh stdin
        = parallelRounds d n fuel opencnt (lh.map (priv stdin))
  | 0, opencnt, lh, stdin, _ => by simp [parallelRoundsS, parallelRounds]
  | fuel + 1, opencnt, lh, stdin, h1 => by
    obtain ⟨hs, ho⟩ := sweepS_sim d n lh stdin opencnt false h1
    rw [parallelRoundsS, parallelRounds]
    by_cases hz : opencnt = 0
    · simp [hz]
    · rw [if_neg hz, if_neg hz]
      cases hr : sweep d n (lh.map (priv stdin)) opencnt false with
      | stop s => rw [hs s hr]
      | ok r =>
        obtain ⟨lh', stdin', hS, hmap, hle, _⟩ := ho r hr
        rw [hS]
        simp only
        rw [parallelRoundsS_eq d n fuel r.opencnt lh' stdin' (by omega), hmap]

theorem map_priv_registryFromS (stdin : List Char) : ∀ (hs : List Handle) (i : Nat),
    (registryFromS i hs).map (priv stdin) = registryFrom i (hs.map (unreadOf stdin))
  | [], _ => rfl
  | h :: hs, i => by
    simp [registryFromS, registryFrom, priv, map_priv_registryFromS stdin hs (i + 1)]

theorem dashes_registryFromS : ∀ (hs : List Handle) (i : Nat),
    dashes (registryFromS i hs) = hs.count Handle.stdin
  | [], _ => rfl
  | h :: hs, i => by
    have hrec := dashes_registryFromS hs (i + 1)
    cases h with
    | stdin => rw [registryFromS, dashes_cons_stdin, hrec]; simp
    | file c => rw [registryFromS, dashes_cons_file, hrec]; simp

/-- The text `parallel` writes round by round on the list `main` builds from
arguments that name standard input at most once. -/
theorem parallelRoundsS_registry (d : List Char) (hd : d ≠ []) (hs : List Handle)
    (stdin : List Char) (fuel : Nat) (hone : hs.count Handle.stdin ≤ 1)
    (hfuel : maxLines (hs.map (unreadOf stdin)) < fuel) :
    parallelRoundsS d d.length fuel hs.length (registryS hs) stdin
      = .ok ((List.range (maxLines (hs.map (unreadOf stdin)))).map
              (refRow d (hs.map (unreadOf stdin)))
            ++ (if hs = [] then [] else [[]])) := by
  have h := parallelRounds_registry d hd (hs.map (unreadOf stdin)) fuel hfuel
  rw [List.length_map] at h
  rw [registryS, parallelRoundsS_eq d d.length fuel hs.length _ stdin
    (by rw [dashes_registryFromS]; exact hone), map_priv_registryFromS, ← registry, h]
  by_cases he : hs = [] <;> simp [he]

/-- C1 as stated fails on a list that names standard input twice: `paste -d,
- -` on the five lines `1` to `5` writes the rows `1,2`, `3,4` and `5,`, each
entry taking the next line of the one stream, where the join of the line lists
of the two entries has the five rows `1,1` to `5,5`. -/
theorem parallelS_shared_counterexample :
    parallelS 4 [','] 1 2 (registryS [Handle.stdin, Handle.stdin]) "1\n2\n3\n4\n5\n".toList
        = .ok ("1,2\n3,4\n5,\n".toList, 0)
      ∧ refParallel [',']
          ([Handle.stdin, Handle.stdin].map (unreadOf "1\n2\n3\n4\n5\n".toList))
        = "1,1\n2,2\n3,3\n4,4\n5,5\n".toList := by
  decide

/-- C1, amended: for every non-empty delimiter sequence `d` and every list of
open streams none of which is listed twice (standard input named at most
once), stream `j` having the line list `L_j`, `parallel()` returns 0 once it is
given at least one round more than the largest line count, and its output is
the reference join: for each row `r` below the largest line count, `col(0,r) ++
sep(1) ++ col(1,r) ++ ... ++ sep(k-1) ++ col(k-1,r) ++ "\n"`. -/
theorem parallelS_eq_reference (d : List Char) (hs : List Handle) (stdin : List Char)
    (fuel : Nat) (hd : d ≠ []) (hone : hs.count Handle.stdin ≤ 1)
    (hfuel : maxLines (hs.map (unreadOf stdin)) < fuel) :
    parallelS fuel d d.length hs.length (registryS hs) stdin
      = .ok (refParallel d (hs.map (unreadOf stdin)), 0) := by
  rw [parallelS, parallelRoundsS_registry d hd hs stdin fuel hone hfuel]
  by_cases he : hs = [] <;> simp [he, refParallel, List.flatMap_def]

/-- C1, amended, at the two scenarios of the specification, files `1 2 3` and
`a b` with delimiter `,` and three one-line files with delimiters `,` and `;`,
and at `paste -d, - B` with standard input `1 2 3`. -/
theorem parallelS_eq_reference_witness :
    parallelS 4 [','] 1 2
          (registryS [Handle.file "1\n2\n3\n".toList, Handle.file "a\nb\n".toList]) []
        = .ok ("1,a\n2,b\n3,\n".toList, 0)
      ∧ parallelS 2 [',', ';'] 2 3
          (registryS [Handle.file "col0\n".toList, Handle.file "col1\n".toList,
            Handle.file "col2\n".toList]) []
        = .ok ("col0,col1;col2\n".toList, 0)
      ∧ parallelS 4 [','] 1 2 (registryS [Handle.stdin, Handle.file "a\nb\n".toList])
          "1\n2\n3\n".toList
        = .ok ("1,a\n2,b\n3,\n".toList, 0) :=
  ⟨parallelS_eq_reference [','] [Handle.file "1\n2\n3\n".toList, Handle.file "a\nb\n".toList]
      [] 4 (by decide) (by decide) (by decide),
   parallelS_eq_reference [',', ';'] [Handle.file "col0\n".toList, Handle.file "col1\n".toList,
      Handle.file "col2\n".toList] [] 2 (by decide) (by decide) (by decide),
   parallelS_eq_reference [','] [Handle.stdin, Handle.file "a\nb\n".toList] "1\n2\n3\n".toList 4
      (by decide) (by decide) (by decide)⟩

/-- C3 as stated fails on a list that names standard input twice: `paste - -`
on five lines writes three rows, where the largest line count among the
streams is five. -/
theorem parallelS_rows_counterexample :
    (∃ ws, parallelRoundsS ['\t'] 1 4 2 (registryS [Handle.stdin, Handle.stdin])
          "1\n2\n3\n4\n5\n".toList = .ok ws ∧ emittedRows ws = 3)
      ∧ maxLines ([Handle.stdin, Handle.stdin].map (unreadOf "1\n2\n3\n4\n5\n".toList)) = 5 :=
  ⟨⟨_, rfl, by decide⟩, by decide⟩

/-- C3, amended: on every list of open streams none of which is listed twice
(standard input named at most once), given at least one round more than the
largest line count, the rounds of `parallel()` that write text are as many as
the largest line count among the streams, each of them ends with the
row-terminating newline, and nothing is written when every stream is empty. -/
theorem parallelS_row_count (d : List Char) (hs : List Handle) (stdin : List Char)
    (fuel : Nat) (hd : d ≠ []) (hone : hs.count Handle.stdin ≤ 1)
    (hfuel : maxLines (hs.map (unreadOf stdin)) < fuel) :
    ∃ ws, parallelRoundsS d d.length fuel hs.length (registryS hs) stdin = .ok ws
      ∧ parallelS fuel d d.length hs.length (registryS hs) stdin = .ok (ws.flatten, 0)
      ∧ emittedRows ws = maxLines (hs.map (unreadOf stdin))
      ∧ (∀ w ∈ ws, w ≠ [] → ∃ body, w = body ++ ['\n'])
      ∧ ((∀ h ∈ hs, unreadOf stdin h = []) → ws.flatten = []) := by
  have hrounds := parallelRoundsS_registry d hd hs stdin fuel hone hfuel
  refine ⟨_, hrounds, ?_, ?_, ?_, ?_⟩
  · rw [parallelS, hrounds]
  · have hrows : ∀ (l : List Nat),
        List.countP (fun w => !w.isEmpty)
          (l.map (refRow d (hs.map (unreadOf stdin)))) = l.length := by
      intro l
      induction l with
      | nil => rfl
      | cons r l ih => simp [refRow, ih]
    rw [emittedRows, List.countP_append, hrows]
    by_cases he : hs = [] <;> simp [he]
  · intro w hw hne
    rw [List.mem_append] at hw
    rcases hw with hw | hw
    · obtain ⟨r, _, rfl⟩ := List.mem_map.mp hw
      exact ⟨_, rfl⟩
    · by_cases he : hs = []
      · simp [he] at hw
      · simp [he] at hw
        exact absurd hw hne
  · intro hall
    have hzero : maxLines (hs.map (unreadOf stdin)) = 0 :=
      maxLines_eq_zero_of_empty _ (fun c hc => by
        obtain ⟨h, hh, rfl⟩ := List.mem_map.mp hc
        exact hall h hh)
    rw [hzero]
    by_cases he : hs = [] <;> simp [he]

/-- C3, amended, at standard input of 2 lines followed by files of 4 and 0
lines: four rows. -/
theorem parallelS_row_count_witness :
    ∃ ws, parallelRoundsS [','] 1 5 3
          (registryS [Handle.stdin, Handle.file "\n\n\n\n".toList, Handle.file []])
          "a\nb".toList = .ok ws
      ∧ parallelS 5 [','] 1 3
          (registryS [Handle.stdin, Handle.file "\n\n\n\n".toList, Handle.file []])
          "a\nb".toList = .ok (ws.flatten, 0)
      ∧ emittedRows ws = 4
      ∧ (∀ w ∈ ws, w ≠ [] → ∃ body, w = body ++ ['\n'])
      ∧ ((∀ h ∈ [Handle.stdin, Handle.file "\n\n\n\n".toList, Handle.file []],
            unreadOf "a\nb".toList h = []) → ws.flatten = []) :=
  parallelS_row_count [','] [Handle.stdin, Handle.file "\n\n\n\n".toList, Handle.file []]
    "a\nb".toList 5 (by decide) (by decide) (by decide)


/-! ## Sequential merge of lists that may name standard input -/

theorem seqRunS_eq (d : List Char) (n : Nat) (lp : SLIST) (stdin : List Char)
    (he : lp.err = 0) :
    seqRunS d n lp stdin
      = match seqRun d n (priv stdin lp) with
        | .stop s => .stop s
        | .ok w => .ok (w, stdinStep lp stdin) := by
  obtain ⟨fp, cnt, err⟩ := lp
  simp only at he
  subst he
  cases fp with
  | none => simp [seqRunS, seqRun, priv]
  | some h =>
    simp only [seqRunS, seqRun, priv, Option.map_some', stdinStep, ne_eq, not_true_eq_false,
      if_false]
    cases drain d n (unreadOf stdin h) 0 false with
    | stop s => rfl
    | ok r => rfl

/-- The loop of `sequential` on a list that may name standard input is the loop
on the private streams dealt to its entries. -/
theorem seqLoopS_eq (d : List Char) (n : Nat) :
    ∀ (lh : List SLIST) (stdin : List Char) (f : Int),
      seqLoopS d n lh stdin f
        = match seqLoop d n (dealSeq lh stdin) f with
          | .stop s => .stop s
          | .ok (o, f') => .ok (o, f', stdinAfter lh stdin)
  | [], stdin, f => by simp [seqLoopS, seqLoop, dealSeq, stdinAfter]
  | lp :: rest, stdin, f => by
    by_cases he : lp.err = 0
    · have hrec := seqLoopS_eq d n rest (stdinStep lp stdin) f
      have he' : (priv stdin lp).err = 0 := he
      simp only [seqLoopS, dealSeq, seqLoop, he, he', ne_eq, not_true_eq_false, if_false,
        seqRunS_eq d n lp stdin he, stdinAfter]
      cases seqRun d n (priv stdin lp) with
      | stop s => rfl
      | ok w =>
        simp only [hrec]
        cases seqLoop d n (dealSeq rest (stdinStep lp stdin)) f with
        | stop s => rfl
        | ok r => rfl
    · have hstep : stdinStep lp stdin = stdin := by simp [stdinStep, he]
      have hrec := seqLoopS_eq d n rest stdin lp.err
      have he' : (priv stdin lp).err ≠ 0 := he
      have he'' : (priv stdin lp).err = lp.err := rfl
      simp only [seqLoopS, dealSeq, seqLoop, he, he', ne_eq, not_false_eq_true, if_true,
        stdinAfter, hstep, hrec, he'']

theorem sequentialS_eq (d : List Char) (n : Nat) (lh : List SLIST) (stdin : List Char) :
    sequentialS d n lh stdin = sequential d n (dealSeq lh stdin) := by
  rw [sequentialS, sequential, seqLoopS_eq]
  cases seqLoop d n (dealSeq lh stdin) 0 with
  | stop s => rfl
  | ok r => rfl

theorem stdinStep_of_not_stdin (lp : SLIST) (stdin : List Char)
    (h : lp.fp ≠ some Handle.stdin) : stdinStep lp stdin = stdin := by
  obtain ⟨fp, cnt, err⟩ := lp
  match fp with
  | none => simp [stdinStep]
  | some (.file c) => simp [stdinStep, afterRead]
  | some .stdin => exact absurd rfl h

theorem stdinAfter_of_no_dash : ∀ (lh : List SLIST) (stdin : List Char), dashes lh = 0 →
    stdinAfter lh stdin = stdin
  | [], _, _ => rfl
  | lp :: lh, stdin, h => by
    have hlp : lp.fp ≠ some Handle.stdin := by
      intro e
      simp [dashes, e] at h
    have h' : dashes lh = 0 := by
      simp only [dashes, List.countP_cons, hlp, decide_False, Bool.false_eq_true, if_false,
        Nat.add_zero] at h
      exact h
    rw [stdinAfter, stdinStep_of_not_stdin lp stdin hlp, stdinAfter_of_no_dash lh stdin h']

theorem dealSeq_of_no_dash : ∀ (lh : List SLIST) (s s' : List Char), dashes lh = 0 →
    dealSeq lh s = dealSeq lh s'
  | [], _, _, _ => rfl
  | lp :: lh, s, s', h => by
    have hlp : lp.fp ≠ some Handle.stdin := by
      intro e
      simp [dashes, e] at h
    have h' : dashes lh = 0 := by
      simp only [dashes, List.countP_cons, hlp, decide_False, Bool.false_eq_true, if_false,
        Nat.add_zero] at h
      exact h
    have hp : priv s lp = priv s' lp := by
      obtain ⟨fp, cnt, err⟩ := lp
      match fp with
      | none => rfl
      | some (.file c) => rfl
      | some .stdin => exact absurd rfl hlp
    rw [dealSeq, dealSeq, stdinStep_of_not_stdin lp s hlp, stdinStep_of_not_stdin lp s' hlp, hp,
      dealSeq_of_no_dash lh s s' h']

theorem dealSeq_append : ∀ (s1 s2 : List SLIST) (stdin : List Char),
    dealSeq (s1 ++ s2) stdin = dealSeq s1 stdin ++ dealSeq s2 (stdinAfter s1 stdin)
  | [], _, _ => rfl
  | lp :: s1, s2, stdin => by
    simp [dealSeq, stdinAfter, dealSeq_append s1 s2 (stdinStep lp stdin)]

/-- C9 as stated fails on lists that share a stream: with `x`, newline on
standard input and `s1 = s2` the one entry named `-`, `sequential()` writes
the run once on `s1`, once on `s2`, and once, not twice, on `s1 ++ s2`. -/
theorem sequentialS_shared_counterexample :
    sequentialS ['\t'] 1 [{ fp := some Handle.stdin, cnt := 0, err := 0 }] "x\n".toList
        = .ok ("x\n".toList, 0)
      ∧ sequentialS ['\t'] 1 [{ fp := some Handle.stdin, cnt := 1, err := 0 }] "x\n".toList
        = .ok ("x\n".toList, 0)
      ∧ sequentialS ['\t'] 1
          ([{ fp := some Handle.stdin, cnt := 0, err := 0 }]
            ++ [{ fp := some Handle.stdin, cnt := 1, err := 0 }]) "x\n".toList
        = .ok ("x\n".toList, 0)
      ∧ "x\n".toList ≠ "x\n".toList ++ "x\n".toList := by
  decide

/-- C9, amended: for stream lists `s1` and `s2` that share no stream (standard
input is not named in both), when `sequential()` returns on `s1` and on `s2`
it returns on `s1 ++ s2`, its output there is the output on `s1` followed by
the output on `s2`, and its status is failure exactly when one of the two
statuses is. -/
theorem sequentialS_append (d : List Char) (n : Nat) (s1 s2 : List SLIST)
    (stdin o1 o2 : List Char) (r1 r2 : Nat) (hshare : dashes s1 = 0 ∨ dashes s2 = 0)
    (h1 : sequentialS d n s1 stdin = .ok (o1, r1))
    (h2 : sequentialS d n s2 stdin = .ok (o2, r2)) :
    sequentialS d n (s1 ++ s2) stdin
      = .ok (o1 ++ o2, if r1 ≠ 0 ∨ r2 ≠ 0 then 1 else 0) := by
  rw [sequentialS_eq] at h1 h2 ⊢
  have hdeal : dealSeq s2 (stdinAfter s1 stdin) = dealSeq s2 stdin := by
    rcases hshare with h | h
    · rw [stdinAfter_of_no_dash s1 stdin h]
    · exact dealSeq_of_no_dash s2 _ _ h
  rw [dealSeq_append, hdeal]
  exact sequential_append d n _ _ o1 o2 r1 r2 h1 h2

/-- C9, amended, at standard input `x y` followed by a list of a stream that
failed to open and a file `z`. -/
theorem sequentialS_append_witness :
    sequentialS ['-'] 1
        ([{ fp := some Handle.stdin, cnt := 0, err := 0 }]
          ++ [{ fp := none, cnt := 1, err := 2 },
              { fp := some (Handle.file "z".toList), cnt := 2, err := 0 }]) "x\ny\n".toList
      = .ok ("x-y\n".toList ++ "z".toList, if (0 : Nat) ≠ 0 ∨ (1 : Nat) ≠ 0 then 1 else 0) :=
  sequentialS_append ['-'] 1 [{ fp := some Handle.stdin, cnt := 0, err := 0 }]
    [{ fp := none, cnt := 1, err := 2 },
      { fp := some (Handle.file "z".toList), cnt := 2, err := 0 }]
    "x\ny\n".toList "x-y\n".toList "z".toList 0 1 (Or.inr (by decide)) (by decide) (by decide)


end Paste
